import Mathlib

/-!
# Verification of the resilient structured-response recovery engine

Shallow embedding of the retry, transcription-fallback, JSON extraction,
repair, scavenging and record-assembly logic of the pitch analysis /
generation repository (`coral_pitch_analysis` and `coral_pitch_generator`).

Remote calls are modelled as injected outcome sequences: an attempt either
returns a payload or fails with an exception value carrying the attributes
the source inspects (`status_code`, and the exception class used for
`except` clause dispatch).  Real-time sleeping is modelled by recording the
sequence of delays that `time.sleep` would be given.  Identifier and
timestamp generation (`uuid.uuid4`, `datetime.now`) are injected as
parameters, and the randomly seeded voice-analysis payload is likewise
injected, gated exactly as in the source.
-/

/-- The exception classes the source distinguishes in its `except` clauses:
`FileNotFoundError`, `requests.RequestException`, and everything else. -/
inductive ExcKind : Type
  | fileNotFound
  | requestException
  | generic
  deriving DecidableEq, Repr

/-- A raised exception, carrying the optional `status_code` attribute that
`retry_with_backoff` and the transcription fallbacks inspect
(`hasattr(e, 'status_code') and e.status_code == 429`). -/
structure Exc : Type where
  kind : ExcKind
  status_code : Option Nat
  deriving DecidableEq, Repr

/-- The observable trace of one execution of `retry_with_backoff`:
the value returned or the exception finally raised, the successive delays
passed to `time.sleep`, and how many times the wrapped action was invoked. -/
structure RetryRun (α : Type) : Type where
  result : Except Exc α
  sleeps : List Nat
  calls : Nat
  deriving Repr

/-- Embedding of the loop body of `retry_with_backoff`
(`pitch_analysis_agent.py`, lines 53-67).  `attempt` is the current value of
the loop variable and the recursion argument counts the remaining iterations,
so it is `max_retries - attempt`; zero remaining corresponds to
`attempt == max_retries`, where any exception is re-raised. -/
def retryAux {α : Type} (outcomes : Nat → Except Exc α)
    (initialDelay backoffFactor maxDelay attempt : Nat) :
    Nat → RetryRun α
  | 0 =>
    match outcomes attempt with
    | .ok v => ⟨.ok v, [], 1⟩
    | .error e => ⟨.error e, [], 1⟩
  | remaining + 1 =>
    match outcomes attempt with
    | .ok v => ⟨.ok v, [], 1⟩
    | .error e =>
      if e.status_code = some 429 then
        let rest := retryAux outcomes initialDelay backoffFactor maxDelay
          (attempt + 1) remaining
        ⟨rest.result, min (initialDelay * backoffFactor ^ attempt) maxDelay :: rest.sleeps,
          rest.calls + 1⟩
      else ⟨.error e, [], 1⟩

/-- Embedding of `retry_with_backoff(func, max_retries, initial_delay,
backoff_factor, max_delay)` (`pitch_analysis_agent.py`, lines 39-67).
`outcomes i` is what the wrapped `func` does on its `i`-th invocation. -/
def retry_with_backoff {α : Type} (outcomes : Nat → Except Exc α)
    (maxRetries initialDelay backoffFactor maxDelay : Nat) : RetryRun α :=
  retryAux outcomes initialDelay backoffFactor maxDelay 0 maxRetries

/-- An outcome sequence that fails every attempt with an HTTP 429 error. -/
def always429 : Nat → Except Exc String :=
  fun _ => .error ⟨.generic, some 429⟩

-- Unfolding equations for `retryAux`.

theorem retryAux_zero_ok {α : Type} {outcomes : Nat → Except Exc α}
    {d0 f dmax a : Nat} {v : α} (h : outcomes a = .ok v) :
    retryAux outcomes d0 f dmax a 0 = ⟨.ok v, [], 1⟩ := by
  unfold retryAux
  rw [h]

theorem retryAux_zero_err {α : Type} {outcomes : Nat → Except Exc α}
    {d0 f dmax a : Nat} {e : Exc} (h : outcomes a = .error e) :
    retryAux outcomes d0 f dmax a 0 = ⟨.error e, [], 1⟩ := by
  unfold retryAux
  rw [h]

theorem retryAux_succ_ok {α : Type} {outcomes : Nat → Except Exc α}
    {d0 f dmax a r : Nat} {v : α} (h : outcomes a = .ok v) :
    retryAux outcomes d0 f dmax a (r + 1) = ⟨.ok v, [], 1⟩ := by
  unfold retryAux
  rw [h]

theorem retryAux_succ_429 {α : Type} {outcomes : Nat → Except Exc α}
    {d0 f dmax a r : Nat} {e : Exc} (h : outcomes a = .error e)
    (h429 : e.status_code = some 429) :
    retryAux outcomes d0 f dmax a (r + 1) =
      ⟨(retryAux outcomes d0 f dmax (a + 1) r).result,
        min (d0 * f ^ a) dmax :: (retryAux outcomes d0 f dmax (a + 1) r).sleeps,
        (retryAux outcomes d0 f dmax (a + 1) r).calls + 1⟩ := by
  conv_lhs => unfold retryAux
  rw [h]
  dsimp only
  rw [if_pos h429]

theorem retryAux_succ_fatal {α : Type} {outcomes : Nat → Except Exc α}
    {d0 f dmax a r : Nat} {e : Exc} (h : outcomes a = .error e)
    (hne : ¬ e.status_code = some 429) :
    retryAux outcomes d0 f dmax a (r + 1) = ⟨.error e, [], 1⟩ := by
  unfold retryAux
  rw [h]
  dsimp only
  rw [if_neg hne]

-- Basic facts about a retry run.

theorem retryAux_calls_pos {α : Type} (outcomes : Nat → Except Exc α)
    (d0 f dmax a : Nat) : ∀ r, 1 ≤ (retryAux outcomes d0 f dmax a r).calls := by
  intro r
  match r with
  | 0 =>
    cases ho : outcomes a with
    | ok v => rw [retryAux_zero_ok ho]
    | error e => rw [retryAux_zero_err ho]
  | r + 1 =>
    cases ho : outcomes a with
    | ok v => rw [retryAux_succ_ok ho]
    | error e =>
      by_cases h : e.status_code = some 429
      · rw [retryAux_succ_429 ho h]
        simp
      · rw [retryAux_succ_fatal ho h]

theorem retryAux_calls_le {α : Type} (outcomes : Nat → Except Exc α)
    (d0 f dmax : Nat) : ∀ r a, (retryAux outcomes d0 f dmax a r).calls ≤ r + 1 := by
  intro r
  induction r with
  | zero =>
    intro a
    cases ho : outcomes a with
    | ok v =>
      rw [retryAux_zero_ok ho]
    | error e =>
      rw [retryAux_zero_err ho]
  | succ n ih =>
    intro a
    cases ho : outcomes a with
    | ok v =>
      rw [retryAux_succ_ok ho]
      exact show (1 : Nat) ≤ n + 1 + 1 by omega
    | error e =>
      by_cases h : e.status_code = some 429
      · rw [retryAux_succ_429 ho h]
        have := ih (a + 1)
        exact show (retryAux outcomes d0 f dmax (a + 1) n).calls + 1 ≤ n + 1 + 1 by omega
      · rw [retryAux_succ_fatal ho h]
        exact show (1 : Nat) ≤ n + 1 + 1 by omega

/-- The sleeps of a retry run are exactly the capped exponential-backoff
delays of the attempts that were retried, in order. -/
theorem retryAux_sleeps_eq {α : Type} (outcomes : Nat → Except Exc α)
    (d0 f dmax : Nat) : ∀ r a,
    (retryAux outcomes d0 f dmax a r).sleeps =
      (List.range ((retryAux outcomes d0 f dmax a r).calls - 1)).map
        (fun i => min (d0 * f ^ (a + i)) dmax) := by
  intro r
  induction r with
  | zero =>
    intro a
    cases ho : outcomes a with
    | ok v =>
      rw [retryAux_zero_ok ho]
      simp
    | error e =>
      rw [retryAux_zero_err ho]
      simp
  | succ n ih =>
    intro a
    cases ho : outcomes a with
    | ok v =>
      rw [retryAux_succ_ok ho]
      simp
    | error e =>
      by_cases h : e.status_code = some 429
      · rw [retryAux_succ_429 ho h]
        have hpos := retryAux_calls_pos outcomes d0 f dmax (a + 1) n
        show min (d0 * f ^ a) dmax :: (retryAux outcomes d0 f dmax (a + 1) n).sleeps =
          (List.range ((retryAux outcomes d0 f dmax (a + 1) n).calls + 1 - 1)).map
            (fun i => min (d0 * f ^ (a + i)) dmax)
        rw [Nat.add_sub_cancel]
        obtain ⟨c, hc⟩ : ∃ c, (retryAux outcomes d0 f dmax (a + 1) n).calls = c + 1 :=
          ⟨(retryAux outcomes d0 f dmax (a + 1) n).calls - 1, by omega⟩
        rw [hc, List.range_succ_eq_map, List.map_cons, List.map_map]
        refine List.cons_eq_cons.mpr ⟨by rw [Nat.add_zero], ?_⟩
        rw [ih (a + 1), hc]
        simp only [Nat.add_sub_cancel]
        apply List.map_congr_left
        intro i _
        simp only [Function.comp_apply]
        have h2 : a + Nat.succ i = a + 1 + i := by omega
        rw [h2]
      · rw [retryAux_succ_fatal ho h]
        simp

/-- Running the retry loop from attempt `a` when the first `i` attempts all
fail with HTTP 429 is the same as sleeping through the first `i` backoff
delays and continuing from attempt `a + i` with the remaining budget. -/
theorem retryAux_reach {α : Type} (outcomes : Nat → Except Exc α)
    (d0 f dmax : Nat) : ∀ i r a, i ≤ r →
    (∀ j, j < i → ∃ e, outcomes (a + j) = .error e ∧ e.status_code = some 429) →
    retryAux outcomes d0 f dmax a r =
      ⟨(retryAux outcomes d0 f dmax (a + i) (r - i)).result,
        (List.range i).map (fun t => min (d0 * f ^ (a + t)) dmax) ++
          (retryAux outcomes d0 f dmax (a + i) (r - i)).sleeps,
        (retryAux outcomes d0 f dmax (a + i) (r - i)).calls + i⟩ := by
  intro i
  induction i with
  | zero =>
    intro r a _ _
    simp
  | succ n ih =>
    intro r a hle hpre
    obtain ⟨e, he, h429⟩ := hpre 0 (Nat.succ_pos n)
    rw [Nat.add_zero] at he
    obtain ⟨r', hr'⟩ : ∃ r', r = r' + 1 := ⟨r - 1, by omega⟩
    subst hr'
    rw [retryAux_succ_429 he h429]
    have hpre' : ∀ j, j < n →
        ∃ e, outcomes (a + 1 + j) = .error e ∧ e.status_code = some 429 := by
      intro j hj
      have := hpre (j + 1) (by omega)
      rwa [show a + (j + 1) = a + 1 + j by omega] at this
    rw [ih r' (a + 1) (by omega) hpre']
    dsimp only
    have hx : a + 1 + n = a + (n + 1) := by omega
    have hy : r' - n = r' + 1 - (n + 1) := by omega
    rw [hx, hy]
    simp only [RetryRun.mk.injEq]
    refine ⟨trivial, ?_, by omega⟩
    rw [List.range_succ_eq_map, List.map_cons, Nat.add_zero, List.cons_append,
      List.map_map]
    refine List.cons_eq_cons.mpr ⟨rfl, ?_⟩
    refine congrArg₂ (fun u v => u ++ v) ?_ rfl
    apply List.map_congr_left
    intro t _
    simp only [Function.comp_apply]
    have h2 : a + Nat.succ t = a + 1 + t := by omega
    rw [h2]

/-- Every invocation of the action other than the last one in a retry run
failed with a rate-limit (429) error: only 429 failures are ever retried. -/
theorem retryAux_retried_429 {α : Type} (outcomes : Nat → Except Exc α)
    (d0 f dmax : Nat) : ∀ r a j, j + 1 < (retryAux outcomes d0 f dmax a r).calls →
    ∃ e, outcomes (a + j) = .error e ∧ e.status_code = some 429 := by
  intro r
  induction r with
  | zero =>
    intro a j hj
    cases ho : outcomes a with
    | ok v => rw [retryAux_zero_ok ho] at hj; dsimp only at hj; omega
    | error e => rw [retryAux_zero_err ho] at hj; dsimp only at hj; omega
  | succ n ih =>
    intro a j hj
    cases ho : outcomes a with
    | ok v => rw [retryAux_succ_ok ho] at hj; dsimp only at hj; omega
    | error e =>
      by_cases h : e.status_code = some 429
      · rw [retryAux_succ_429 ho h] at hj
        dsimp only at hj
        match j with
        | 0 => exact ⟨e, by rwa [Nat.add_zero], h⟩
        | j' + 1 =>
          have := ih (a + 1) j' (by omega)
          rwa [show a + 1 + j' = a + (j' + 1) by omega] at this
      · rw [retryAux_succ_fatal ho h] at hj; dsimp only at hj; omega

/-- C2.  The delays slept by `retry_with_backoff` follow the capped
exponential schedule `min(initialDelay * backoffFactor^i, maxDelay)`, one
delay per retried attempt in attempt order; a 429 failure on an attempt with
retry budget left (all earlier attempts having failed with 429) is always
followed by a further attempt; the action is invoked at most
`maxRetries + 1` times; and with `maxRetries = 3, initialDelay = 1,
backoffFactor = 2` three consecutive rate-limit failures produce the delay
sequence `[1, 2, 4]` over exactly 4 invocations. -/
theorem retry_backoff_delay_schedule {α : Type} (outcomes : Nat → Except Exc α)
    (maxR d0 f dmax : Nat) :
    ((retry_with_backoff outcomes maxR d0 f dmax).sleeps =
      (List.range ((retry_with_backoff outcomes maxR d0 f dmax).calls - 1)).map
        (fun i => min (d0 * f ^ i) dmax))
    ∧ (retry_with_backoff outcomes maxR d0 f dmax).calls ≤ maxR + 1
    ∧ (∀ i, i < maxR →
        (∀ j, j ≤ i → ∃ e, outcomes j = .error e ∧ e.status_code = some 429) →
        i + 2 ≤ (retry_with_backoff outcomes maxR d0 f dmax).calls)
    ∧ (retry_with_backoff always429 3 1 2 60).sleeps = [1, 2, 4]
    ∧ (retry_with_backoff always429 3 1 2 60).calls = 4 := by
  refine ⟨?_, ?_, ?_, by rfl, by rfl⟩
  · have := retryAux_sleeps_eq outcomes d0 f dmax maxR 0
    simpa [retry_with_backoff] using this
  · exact retryAux_calls_le outcomes d0 f dmax maxR 0
  · intro i hi hpre
    have hreach := retryAux_reach outcomes d0 f dmax (i + 1) maxR 0 (by omega)
      (by intro j hj; simpa using hpre j (by omega))
    unfold retry_with_backoff
    rw [hreach]
    have := retryAux_calls_pos outcomes d0 f dmax (0 + (i + 1)) (maxR - (i + 1))
    exact show (retryAux outcomes d0 f dmax (0 + (i + 1)) (maxR - (i + 1))).calls
      + (i + 1) ≥ i + 2 by omega

/-- If the run finally re-raises a 429 error, the retry budget was fully
exhausted: the action was invoked `remaining + 1` times. -/
theorem retryAux_err429_calls {α : Type} (outcomes : Nat → Except Exc α)
    (d0 f dmax : Nat) : ∀ r a e, (retryAux outcomes d0 f dmax a r).result = .error e →
    e.status_code = some 429 → (retryAux outcomes d0 f dmax a r).calls = r + 1 := by
  intro r
  induction r with
  | zero =>
    intro a e hres _
    cases ho : outcomes a with
    | ok v => rw [retryAux_zero_ok ho]
    | error q => rw [retryAux_zero_err ho]
  | succ n ih =>
    intro a e hres h429
    cases ho : outcomes a with
    | ok v =>
      rw [retryAux_succ_ok ho] at hres
      exact absurd hres (by simp)
    | error q =>
      by_cases h : q.status_code = some 429
      · rw [retryAux_succ_429 ho h] at hres ⊢
        dsimp only at hres ⊢
        rw [ih (a + 1) e hres h429]
      · rw [retryAux_succ_fatal ho h] at hres ⊢
        dsimp only at hres ⊢
        cases hres
        exact absurd h429 h

/-- C3 counterexample.  With `maxRetries = 1` every attempt fails with
HTTP 429: the failure on the final attempt carries status code 429, yet it
is re-raised rather than retried (the run stops at 2 invocations), so
"retries a failed attempt if and only if the error carries status 429" is
false as literally stated — the 429 direction fails once the budget is
exhausted. -/
theorem retry_429_exhausted_not_retried :
    (retry_with_backoff always429 1 1 2 60).calls = 2
    ∧ (retry_with_backoff always429 1 1 2 60).result = .error ⟨.generic, some 429⟩
    ∧ always429 1 = .error ⟨.generic, some 429⟩
    ∧ (Exc.mk .generic (some 429)).status_code = some 429 :=
  ⟨rfl, rfl, rfl, rfl⟩

/-- C3 (amended).  Provided the run has reached attempt `i` (all earlier
attempts failed with 429) and attempt `i` fails with error `e`:
the attempt is retried iff `e` carries status 429 *and* retry budget
remains; any non-429 failure is re-raised immediately — the run returns
`error e` after exactly `i + 1` invocations with no additional sleep
(`i` sleeps, all from the earlier 429 attempts), regardless of remaining
budget; and, unconditionally, every non-final invocation of any run was a
429 failure. -/
theorem retry_fatal_short_circuits {α : Type} (outcomes : Nat → Except Exc α)
    (maxR d0 f dmax i : Nat) (e : Exc)
    (hpre : ∀ j, j < i → ∃ q, outcomes j = .error q ∧ q.status_code = some 429)
    (hi : i ≤ maxR) (he : outcomes i = .error e) :
    ((e.status_code = some 429 ∧ i < maxR) ↔
      i + 2 ≤ (retry_with_backoff outcomes maxR d0 f dmax).calls)
    ∧ (¬ e.status_code = some 429 →
        (retry_with_backoff outcomes maxR d0 f dmax).result = .error e
        ∧ (retry_with_backoff outcomes maxR d0 f dmax).calls = i + 1
        ∧ (retry_with_backoff outcomes maxR d0 f dmax).sleeps.length = i)
    ∧ (∀ j, j + 1 < (retry_with_backoff outcomes maxR d0 f dmax).calls →
        ∃ q, outcomes j = .error q ∧ q.status_code = some 429) := by
  have hreach := retryAux_reach outcomes d0 f dmax i maxR 0 hi
    (by intro j hj; simpa using hpre j hj)
  have hi' : (0 : Nat) + i = i := Nat.zero_add i
  rw [hi'] at hreach
  refine ⟨?_, ?_, ?_⟩
  · constructor
    · rintro ⟨h429, hlt⟩
      obtain ⟨m, hm⟩ : ∃ m, maxR - i = m + 1 := ⟨maxR - i - 1, by omega⟩
      unfold retry_with_backoff
      rw [hreach, hm, retryAux_succ_429 he h429]
      dsimp only
      have := retryAux_calls_pos outcomes d0 f dmax (i + 1) m
      omega
    · intro hcalls
      by_contra hnot
      unfold retry_with_backoff at hcalls
      rw [hreach] at hcalls
      dsimp only at hcalls
      by_cases h429 : e.status_code = some 429
      · have hieq : i = maxR := by
          rcases Nat.lt_or_ge i maxR with hlt | hge
          · exact absurd ⟨h429, hlt⟩ hnot
          · omega
        have hz : maxR - i = 0 := by omega
        rw [hz, retryAux_zero_err he] at hcalls
        dsimp only at hcalls
        omega
      · rcases Nat.eq_zero_or_pos (maxR - i) with hz | hp
        · rw [hz, retryAux_zero_err he] at hcalls
          dsimp only at hcalls
          omega
        · obtain ⟨m, hm⟩ : ∃ m, maxR - i = m + 1 := ⟨maxR - i - 1, by omega⟩
          rw [hm, retryAux_succ_fatal he h429] at hcalls
          dsimp only at hcalls
          omega
  · intro h429
    have hR : retryAux outcomes d0 f dmax i (maxR - i) = ⟨.error e, [], 1⟩ := by
      rcases Nat.eq_zero_or_pos (maxR - i) with hz | hp
      · rw [hz, retryAux_zero_err he]
      · obtain ⟨m, hm⟩ : ∃ m, maxR - i = m + 1 := ⟨maxR - i - 1, by omega⟩
        rw [hm, retryAux_succ_fatal he h429]
    unfold retry_with_backoff
    rw [hreach, hR]
    dsimp only
    exact ⟨rfl, by omega, by simp⟩
  · intro j hj
    have := retryAux_retried_429 outcomes d0 f dmax maxR 0 j (by exact hj)
    simpa using this

-- Transcription fallbacks (`pitch_analysis_agent.py`).

/-- The fallback string returned by `_transcribe_local_file` when retries
are exhausted against rate limits. -/
def localRateLimitPlaceholder : String :=
  "[TRANSCRIPTION UNAVAILABLE - API RATE LIMIT]\n\nUnable to transcribe audio due to system overload. Please try again later or use the text input option instead."

/-- The fallback string returned by `_transcribe_from_url` when retries are
exhausted against rate limits. -/
def urlRateLimitPlaceholder : String :=
  "[TRANSCRIPTION UNAVAILABLE - API RATE LIMIT]\n\nUnable to transcribe audio from URL due to system overload. Please try again later or download the file and use local upload instead."

/-- Embedding of `_transcribe_local_file` (`pitch_analysis_agent.py`,
lines 221-256): run the transcription action under
`retry_with_backoff(max_retries=3, initial_delay=2)`; a `FileNotFoundError`
yields `None`; any other exception yields the rate-limit placeholder when it
carries `status_code == 429` and `None` otherwise.  A successful attempt
returns the transcribed text, or `None` when no speech was detected. -/
def transcribe_local_file (outcomes : Nat → Except Exc (Option String)) :
    Option String :=
  match (retry_with_backoff outcomes 3 2 2 60).result with
  | .ok r => r
  | .error e =>
    if e.kind = .fileNotFound then none
    else if e.status_code = some 429 then some localRateLimitPlaceholder
    else none

/-- Embedding of `_transcribe_from_url` (`pitch_analysis_agent.py`,
lines 170-219): like the local variant but a `requests.RequestException`
yields `None`, and the placeholder text differs. -/
def transcribe_from_url (outcomes : Nat → Except Exc (Option String)) :
    Option String :=
  match (retry_with_backoff outcomes 3 2 2 60).result with
  | .ok r => r
  | .error e =>
    if e.kind = .requestException then none
    else if e.status_code = some 429 then some urlRateLimitPlaceholder
    else none

/-- C4.  When the retries are exhausted and the error finally re-raised
carries HTTP status 429 (and is an ordinary API error, not a
file-not-found / request-download failure), both transcription functions
return the human-readable placeholder string instead of propagating the
exception — and the budget really was exhausted: the action ran
`maxRetries + 1 = 4` times. -/
theorem transcription_degrades_to_placeholder_on_429
    (outcomes : Nat → Except Exc (Option String)) (e : Exc)
    (hres : (retry_with_backoff outcomes 3 2 2 60).result = .error e)
    (h429 : e.status_code = some 429) (hk : e.kind = .generic) :
    transcribe_local_file outcomes = some localRateLimitPlaceholder
    ∧ transcribe_from_url outcomes = some urlRateLimitPlaceholder
    ∧ (retry_with_backoff outcomes 3 2 2 60).calls = 4 := by
  refine ⟨?_, ?_, ?_⟩
  · unfold transcribe_local_file
    rw [hres]
    dsimp only
    rw [if_neg (by rw [hk]; intro hcon; cases hcon), if_pos h429]
  · unfold transcribe_from_url
    rw [hres]
    dsimp only
    rw [if_neg (by rw [hk]; intro hcon; cases hcon), if_pos h429]
  · exact retryAux_err429_calls outcomes 2 2 60 3 0 e hres h429

/-- All attempts failing with a 429 error, for `Option String` payloads. -/
def always429opt : Nat → Except Exc (Option String) :=
  fun _ => .error ⟨.generic, some 429⟩

/-- Witness for C4 at a concrete outcome sequence. -/
theorem transcription_degrades_to_placeholder_on_429_witness :
    transcribe_local_file always429opt = some localRateLimitPlaceholder
    ∧ transcribe_from_url always429opt = some urlRateLimitPlaceholder
    ∧ (retry_with_backoff always429opt 3 2 2 60).calls = 4 :=
  transcription_degrades_to_placeholder_on_429 always429opt
    ⟨.generic, some 429⟩ rfl rfl rfl

/-- Witness for C2: the schedule theorem applied to a run where every
attempt fails with a 429 error. -/
theorem retry_backoff_delay_schedule_witness :
    (retry_with_backoff always429 3 1 2 60).sleeps =
      (List.range ((retry_with_backoff always429 3 1 2 60).calls - 1)).map
        (fun i => min (1 * 2 ^ i) 60)
    ∧ 0 + 2 ≤ (retry_with_backoff always429 3 1 2 60).calls := by
  have h := retry_backoff_delay_schedule always429 3 1 2 60
  exact ⟨h.1, h.2.2.1 0 (by decide)
    (fun j _ => ⟨⟨.generic, some 429⟩, rfl, rfl⟩)⟩

/-- An outcome sequence that fails every attempt with a plain HTTP 500
error (no rate limit). -/
def always500 : Nat → Except Exc String :=
  fun _ => .error ⟨.generic, some 500⟩

/-- Witness for the amended C3: a fatal (non-429) failure on the very first
attempt is re-raised after a single invocation with zero sleeps. -/
theorem retry_fatal_short_circuits_witness :
    (retry_with_backoff always500 3 1 2 60).result = .error ⟨.generic, some 500⟩
    ∧ (retry_with_backoff always500 3 1 2 60).calls = 0 + 1
    ∧ (retry_with_backoff always500 3 1 2 60).sleeps.length = 0 := by
  have h := retry_fatal_short_circuits always500 3 1 2 60 0 ⟨.generic, some 500⟩
    (fun j hj => absurd hj (by omega)) (by omega) rfl
  exact h.2.1 (by decide)

-- JSON values.

/-- JSON values, as produced by `json.loads`.  The numeric fragment is
restricted to integers: every number occurring in the analysis schema and
its defaults is an integer, and no theorem below depends on float parsing. -/
inductive Value : Type
  | null : Value
  | bool (b : Bool) : Value
  | num (n : Int) : Value
  | str (s : String) : Value
  | arr (xs : List Value) : Value
  | obj (fields : List (String × Value)) : Value
  deriving Repr

mutual

/-- Structural equality test for JSON values. -/
def Value.beq : Value → Value → Bool
  | .null, .null => true
  | .bool a, .bool b => a == b
  | .num a, .num b => a == b
  | .str a, .str b => a == b
  | .arr a, .arr b => Value.beqList a b
  | .obj a, .obj b => Value.beqFields a b
  | _, _ => false

/-- Position-by-position equality test for value lists. -/
def Value.beqList : List Value → List Value → Bool
  | [], [] => true
  | x :: xs, y :: ys => Value.beq x y && Value.beqList xs ys
  | _, _ => false

/-- Equality test for field lists: names, values and order. -/
def Value.beqFields : List (String × Value) → List (String × Value) → Bool
  | [], [] => true
  | (k, v) :: xs, (l, w) :: ys => k == l && Value.beq v w && Value.beqFields xs ys
  | _, _ => false

end

mutual

theorem Value.beq_iff_eq : ∀ a b : Value, Value.beq a b = true ↔ a = b
  | .null, .null => by simp [Value.beq]
  | .bool _, .bool _ => by simp [Value.beq]
  | .num _, .num _ => by simp [Value.beq]
  | .str _, .str _ => by simp [Value.beq]
  | .arr x, .arr y => by simp [Value.beq, Value.beqList_iff_eq x y]
  | .obj x, .obj y => by simp [Value.beq, Value.beqFields_iff_eq x y]
  | .null, .bool _ | .null, .num _ | .null, .str _ | .null, .arr _ | .null, .obj _
  | .bool _, .null | .bool _, .num _ | .bool _, .str _ | .bool _, .arr _ | .bool _, .obj _
  | .num _, .null | .num _, .bool _ | .num _, .str _ | .num _, .arr _ | .num _, .obj _
  | .str _, .null | .str _, .bool _ | .str _, .num _ | .str _, .arr _ | .str _, .obj _
  | .arr _, .null | .arr _, .bool _ | .arr _, .num _ | .arr _, .str _ | .arr _, .obj _
  | .obj _, .null | .obj _, .bool _ | .obj _, .num _ | .obj _, .str _ | .obj _, .arr _ => by
    simp [Value.beq]

theorem Value.beqList_iff_eq : ∀ xs ys : List Value, Value.beqList xs ys = true ↔ xs = ys
  | [], [] => by simp [Value.beqList]
  | x :: xs, y :: ys => by
    simp [Value.beqList, Value.beq_iff_eq x y, Value.beqList_iff_eq xs ys]
  | [], _ :: _ => by simp [Value.beqList]
  | _ :: _, [] => by simp [Value.beqList]

theorem Value.beqFields_iff_eq :
    ∀ xs ys : List (String × Value), Value.beqFields xs ys = true ↔ xs = ys
  | [], [] => by simp [Value.beqFields]
  | (k, v) :: xs, (l, w) :: ys => by
    simp [Value.beqFields, Value.beq_iff_eq v w, Value.beqFields_iff_eq xs ys,
      and_assoc]
  | [], _ :: _ => by simp [Value.beqFields]
  | _ :: _, [] => by simp [Value.beqFields]

end

instance : DecidableEq Value := fun a b =>
  decidable_of_iff (Value.beq a b = true) (Value.beq_iff_eq a b)

-- Character classes.

/-- JSON inter-token whitespace, as accepted by `json.loads`. -/
def isJsonWs (c : Char) : Bool :=
  c == ' ' || c == '\t' || c == '\n' || c == '\r'

/-- ASCII whitespace as removed by Python `str.strip` and matched by the
regex class `\s` (the rarely relevant non-ASCII whitespace code points are
out of scope of this fragment). -/
def isPyWs (c : Char) : Bool :=
  c == ' ' || c == '\t' || c == '\n' || c == '\r' || c == '\x0b' || c == '\x0c'

-- A parser for the JSON fragment `json.loads` is applied to.

/-- Single-character escapes accepted inside JSON string literals
(`\uXXXX` escapes are outside this fragment). -/
def parseEscape (c : Char) : Option Char :=
  if c = '\"' then some '\"'
  else if c = '\\' then some '\\'
  else if c = '/' then some '/'
  else if c = 'n' then some '\n'
  else if c = 't' then some '\t'
  else if c = 'r' then some '\r'
  else if c = 'b' then some (Char.ofNat 8)
  else if c = 'f' then some (Char.ofNat 12)
  else none

/-- Parse the body of a JSON string literal after the opening quote,
returning the decoded characters and the input after the closing quote.
Like strict-mode `json.loads`, a raw control character aborts the parse. -/
def parseStringBody : List Char → Option (List Char × List Char)
  | [] => none
  | '\"' :: r => some ([], r)
  | '\\' :: e :: r =>
    match parseEscape e with
    | some c => (parseStringBody r).map (fun p => (c :: p.1, p.2))
    | none => none
  | ['\\'] => none
  | c :: r =>
    if c.toNat < 32 then none
    else (parseStringBody r).map (fun p => (c :: p.1, p.2))

/-- Numeric value of a digit string. -/
def natOfDigits (ds : List Char) : Nat :=
  ds.foldl (fun acc c => acc * 10 + (c.toNat - 48)) 0

/-- Parse an integer token (the numeric fragment of this model; a `.` or
exponent marker after the digits aborts, floats being outside the
fragment). -/
def parseNatTok (t : List Char) : Option (Nat × List Char) :=
  let ds := t.takeWhile Char.isDigit
  let r := t.dropWhile Char.isDigit
  if ds = [] then none
  else
    match r with
    | '.' :: _ => none
    | 'e' :: _ => none
    | 'E' :: _ => none
    | _ => some (natOfDigits ds, r)

/-- Parse a possibly negated integer token. -/
def parseNumberTok (t : List Char) : Option (Value × List Char) :=
  match t with
  | '-' :: r =>
    match parseNatTok r with
    | some (n, r2) => some (.num (-(n : Int)), r2)
    | none => none
  | _ =>
    match parseNatTok t with
    | some (n, r2) => some (.num (n : Int), r2)
    | none => none

/-- Insert a key into a mapping with Python `dict` semantics: an existing
key is overwritten in place, a new key is appended. -/
def insertKV (m : List (String × Value)) (k : String) (v : Value) :
    List (String × Value) :=
  if m.any (fun p => p.1 == k) then
    m.map (fun p => if p.1 == k then (p.1, v) else p)
  else m ++ [(k, v)]

/-- Build a Python `dict` from parsed members in order. -/
def dictify (ps : List (String × Value)) : List (String × Value) :=
  ps.foldl (fun m p => insertKV m p.1 p.2) []

mutual

/-- Fuel-indexed recursive-descent parser for the JSON value grammar. -/
def parseValue : Nat → List Char → Option (Value × List Char)
  | 0, _ => none
  | fuel + 1, s =>
    match s.dropWhile isJsonWs with
    | 't' :: 'r' :: 'u' :: 'e' :: r => some (.bool true, r)
    | 'f' :: 'a' :: 'l' :: 's' :: 'e' :: r => some (.bool false, r)
    | 'n' :: 'u' :: 'l' :: 'l' :: r => some (.null, r)
    | '\"' :: r =>
      match parseStringBody r with
      | some (cs, r2) => some (.str (String.mk cs), r2)
      | none => none
    | '[' :: r =>
      match r.dropWhile isJsonWs with
      | ']' :: r2 => some (.arr [], r2)
      | _ =>
        match parseElems fuel r with
        | some (xs, r2) => some (.arr xs, r2)
        | none => none
    | '\x7b' :: r =>
      match r.dropWhile isJsonWs with
      | '\x7d' :: r2 => some (.obj [], r2)
      | _ =>
        match parseMembers fuel r with
        | some (ps, r2) => some (.obj (dictify ps), r2)
        | none => none
    | t => parseNumberTok t

/-- Parse the comma-separated elements of a non-empty array up to `]`. -/
def parseElems : Nat → List Char → Option (List Value × List Char)
  | 0, _ => none
  | fuel + 1, s =>
    match parseValue fuel s with
    | none => none
    | some (v, r) =>
      match r.dropWhile isJsonWs with
      | ',' :: r2 =>
        match parseElems fuel r2 with
        | some (xs, r3) => some (v :: xs, r3)
        | none => none
      | ']' :: r2 => some ([v], r2)
      | _ => none

/-- Parse the comma-separated members of a non-empty object up to the
closing brace. -/
def parseMembers : Nat → List Char → Option (List (String × Value) × List Char)
  | 0, _ => none
  | fuel + 1, s =>
    match s.dropWhile isJsonWs with
    | '\"' :: r =>
      match parseStringBody r with
      | none => none
      | some (k, r2) =>
        match r2.dropWhile isJsonWs with
        | ':' :: r3 =>
          match parseValue fuel r3 with
          | none => none
          | some (v, r4) =>
            match r4.dropWhile isJsonWs with
            | ',' :: r5 =>
              match parseMembers fuel r5 with
              | some (ps, r6) => some ((String.mk k, v) :: ps, r6)
              | none => none
            | '\x7d' :: r5 => some ([(String.mk k, v)], r5)
            | _ => none
        | _ => none
    | _ => none

end

/-- Embedding of `json.loads` on the integer fragment: parse one value and
require that nothing but whitespace follows (Python raises `Extra data`
otherwise). -/
def json_loads (s : List Char) : Option Value :=
  match parseValue (2 * s.length + 4) s with
  | some (v, r) => if r.dropWhile isJsonWs = [] then some v else none
  | none => none

-- A serializer matching `json.dumps` with its default separators.

/-- Escape one character as `json.dumps` does for the characters occurring
in this development. -/
def escapeChar (c : Char) : List Char :=
  if c = '\"' then ['\\', '\"']
  else if c = '\\' then ['\\', '\\']
  else if c = '\n' then ['\\', 'n']
  else if c = '\t' then ['\\', 't']
  else if c = '\r' then ['\\', 'r']
  else if c.toNat = 8 then ['\\', 'b']
  else if c.toNat = 12 then ['\\', 'f']
  else [c]

/-- Serialize a string literal with its quotes. -/
def serStr (s : String) : List Char :=
  '\"' :: (s.toList.map escapeChar).flatten ++ ['\"']

mutual

/-- Embedding of `json.dumps` (default separators `", "` and `": "`). -/
def serialize : Value → List Char
  | .null => 'n' :: 'u' :: 'l' :: ['l']
  | .bool true => 't' :: 'r' :: 'u' :: ['e']
  | .bool false => 'f' :: 'a' :: 'l' :: 's' :: ['e']
  | .num n => (toString n).toList
  | .str s => serStr s
  | .arr xs => '[' :: serializeArr xs ++ [']']
  | .obj m => '\x7b' :: serializeObj m ++ ['\x7d']

/-- Serialize array elements, comma-space separated. -/
def serializeArr : List Value → List Char
  | [] => []
  | [x] => serialize x
  | x :: y :: rest => serialize x ++ ',' :: ' ' :: serializeArr (y :: rest)

/-- Serialize object members, comma-space separated, colon-space keyed. -/
def serializeObj : List (String × Value) → List Char
  | [] => []
  | [(k, v)] => serStr k ++ ':' :: ' ' :: serialize v
  | (k, v) :: p :: rest =>
    serStr k ++ ':' :: ' ' :: serialize v ++ ',' :: ' ' :: serializeObj (p :: rest)

end

-- Raw-text normalization and JSON-candidate extraction
-- (`mistral_analysis_agent.py`, lines 86-105).

/-- One character of `.replace('\n', ' ').replace('\r', ' ').replace('\t', ' ')`. -/
def wsToSpace (c : Char) : Char :=
  if c = '\n' || c = '\r' || c = '\t' then ' ' else c

/-- `.replace('\n', ' ').replace('\r', ' ').replace('\t', ' ')`. -/
def replWS (s : List Char) : List Char := s.map wsToSpace

/-- One pass of Python `str.replace(',' + t, t)`: delete every comma
immediately preceding `t`, scanning left to right without rescanning. -/
def delCommaBefore (t : Char) : List Char → List Char
  | [] => []
  | [x] => [x]
  | x :: y :: r =>
    if x = ',' ∧ y = t then y :: delCommaBefore t r
    else x :: delCommaBefore t (y :: r)

/-- `.replace(',\x7d', '\x7d').replace(',]', ']')`. -/
def contractCommas (s : List Char) : List Char :=
  delCommaBefore ']' (delCommaBefore '\x7d' s)

/-- The normalization applied to a JSON candidate: newline, carriage
return and tab become spaces, then dangling commas before a closing brace
or bracket are removed. -/
def normalizeJson (s : List Char) : List Char :=
  contractCommas (replWS s)

/-- Python `str.lstrip()` on the ASCII fragment. -/
def lstripWS (s : List Char) : List Char := s.dropWhile isPyWs

/-- Python `str.rstrip()` on the ASCII fragment. -/
def rstripWS (s : List Char) : List Char := (s.reverse.dropWhile isPyWs).reverse

/-- Python `str.strip()` on the ASCII fragment. -/
def stripWS (s : List Char) : List Char := rstripWS (lstripWS s)

/-- Python `str.find(c)`, as an `Option` instead of `-1`. -/
def pyFindIdx (c : Char) (s : List Char) : Option Nat :=
  s.findIdx? (· == c)

/-- Python `str.rfind(c)`, as an `Option` instead of `-1`. -/
def pyRFindIdx (c : Char) (s : List Char) : Option Nat :=
  (s.reverse.findIdx? (· == c)).map (fun i => s.length - 1 - i)

/-- Embedding of the JSON-candidate selection of
`generate_comprehensive_analysis` (`mistral_analysis_agent.py`,
lines 86-105): strip the raw text, locate `json_start = find('\x7b')` and
`json_end = rfind('\x7d') + 1`; when `json_start != -1` and
`json_end > json_start` slice that substring and normalize it, otherwise
normalize the entire stripped text. -/
def extractCandidate (raw : List Char) : List Char :=
  let cleaned := stripWS raw
  match pyFindIdx '\x7b' cleaned, pyRFindIdx '\x7d' cleaned with
  | some i, some j =>
    if i < j + 1 then normalizeJson ((cleaned.drop i).take (j + 1 - i))
    else normalizeJson cleaned
  | _, _ => normalizeJson cleaned

/-- The candidate selection in the order the specification words it:
normalize the whole raw text first, then slice from the first `\x7b` to the
last `\x7d` when both exist and the first precedes the last, and otherwise
use the entire normalized text. -/
def extractCandidateClaimed (raw : List Char) : List Char :=
  let n := normalizeJson raw
  match pyFindIdx '\x7b' n, pyRFindIdx '\x7d' n with
  | some i, some j =>
    if i < j + 1 then (n.drop i).take (j + 1 - i)
    else n
  | _, _ => n

/-- C6 counterexample.  On the raw text `" x"` (a leading space, no braces)
the source first strips the text and produces the candidate `"x"`, while
the claimed normalize-first pipeline leaves the leading space and produces
`" x"`: the two candidates differ, so the claimed description is not
literally the code's behaviour on brace-free inputs. -/
theorem extract_candidate_counterexample :
    extractCandidate (' ' :: ['x']) = ['x']
    ∧ extractCandidateClaimed (' ' :: ['x']) = ' ' :: ['x']
    ∧ extractCandidate (' ' :: ['x']) ≠ extractCandidateClaimed (' ' :: ['x']) := by
  refine ⟨by decide, by decide, by decide⟩

-- Facts about the comma-deletion pass.

theorem del_cons₂ (t x y : Char) (r : List Char) :
    delCommaBefore t (x :: y :: r) =
      if x = ',' ∧ y = t then y :: delCommaBefore t r
      else x :: delCommaBefore t (y :: r) := rfl

/-- Two-step structural induction matching the recursion of
`delCommaBefore`. -/
theorem twoStepInduction {P : List Char → Prop}
    (h0 : P [])
    (h1 : ∀ x, P [x])
    (h2 : ∀ x y r, P r → P (y :: r) → P (x :: y :: r)) : ∀ s, P s := by
  have key : ∀ n s, List.length s ≤ n → P s := by
    intro n
    induction n with
    | zero =>
      intro s hs
      cases s with
      | nil => exact h0
      | cons x r => simp at hs
    | succ n ih =>
      intro s hs
      match s with
      | [] => exact h0
      | [x] => exact h1 x
      | x :: y :: r =>
        simp only [List.length_cons] at hs
        exact h2 x y r (ih r (by omega)) (ih (y :: r) (by simp; omega))
  exact fun s => key s.length s le_rfl

theorem getLast?_cons_of_ne_nil {x : Char} {l : List Char} (h : l ≠ []) :
    (x :: l).getLast? = l.getLast? := by
  cases l with
  | nil => exact absurd rfl h
  | cons y r => exact List.getLast?_cons_cons

theorem del_ne_nil (t : Char) : ∀ s : List Char, s ≠ [] →
    delCommaBefore t s ≠ [] := by
  intro s
  match s with
  | [] => exact fun h => absurd rfl h
  | [x] => intro _; simp [delCommaBefore]
  | x :: y :: r =>
    intro _
    rw [del_cons₂]
    by_cases h : x = ',' ∧ y = t <;> simp [h]

theorem del_cons_of_ne_comma (t : Char) {x : Char} (rest : List Char)
    (hx : x ≠ ',') : delCommaBefore t (x :: rest) = x :: delCommaBefore t rest := by
  cases rest with
  | nil => rfl
  | cons y r =>
    rw [del_cons₂, if_neg]
    intro hcon
    exact hx hcon.1

theorem del_eq_self_of_no_comma (t : Char) : ∀ s : List Char, ',' ∉ s →
    delCommaBefore t s = s := by
  intro s
  induction s with
  | nil => intro _; rfl
  | cons x rest ih =>
    intro hmem
    have hx : x ≠ ',' := fun h => hmem (h ▸ List.mem_cons_self x rest)
    rw [del_cons_of_ne_comma t rest hx, ih (fun h => hmem (List.mem_cons_of_mem x h))]

theorem del_getLast? (t : Char) : ∀ s : List Char,
    (delCommaBefore t s).getLast? = s.getLast? := by
  apply twoStepInduction
  · rfl
  · intro x; rfl
  · intro x y r ihr ihyr
    rw [del_cons₂]
    by_cases h : x = ',' ∧ y = t
    · rw [if_pos h]
      by_cases hne : r = []
      · subst hne
        simp [delCommaBefore]
      · have hdel : delCommaBefore t r ≠ [] := del_ne_nil t r hne
        rw [getLast?_cons_of_ne_nil hdel, ihr,
          getLast?_cons_of_ne_nil (show (y : Char) :: r ≠ [] from by simp),
          getLast?_cons_of_ne_nil hne]
    · rw [if_neg h]
      have hne : (y : Char) :: r ≠ [] := by simp
      have hdel : delCommaBefore t (y :: r) ≠ [] := del_ne_nil t (y :: r) hne
      rw [getLast?_cons_of_ne_nil hdel, ihyr, getLast?_cons_of_ne_nil hne]

theorem del_count (t c : Char) (hc : c ≠ ',') : ∀ s : List Char,
    (delCommaBefore t s).count c = s.count c := by
  apply twoStepInduction
  · rfl
  · intro x; rfl
  · intro x y r ihr ihyr
    rw [del_cons₂]
    by_cases h : x = ',' ∧ y = t
    · rw [if_pos h]
      have hx : x ≠ c := by rw [h.1]; exact fun hcon => hc hcon.symm
      rw [List.count_cons, List.count_cons, List.count_cons, ihr]
      simp [hx]
    · rw [if_neg h, List.count_cons, List.count_cons, ihyr, List.count_cons]

theorem del_mem_iff (t c : Char) (hc : c ≠ ',') (s : List Char) :
    c ∈ delCommaBefore t s ↔ c ∈ s := by
  rw [← List.count_pos_iff, ← List.count_pos_iff, del_count t c hc s]

theorem del_append (t : Char) : ∀ a b : List Char,
    (a.getLast? = some ',' → b.head? ≠ some t) →
    delCommaBefore t (a ++ b) = delCommaBefore t a ++ delCommaBefore t b := by
  apply twoStepInduction (P := fun a => ∀ b : List Char,
    (a.getLast? = some ',' → b.head? ≠ some t) →
    delCommaBefore t (a ++ b) = delCommaBefore t a ++ delCommaBefore t b)
  · intro b _
    simp [delCommaBefore]
  · intro x b hcond
    cases b with
    | nil => simp [delCommaBefore]
    | cons z br =>
      simp only [List.singleton_append]
      rw [del_cons₂]
      by_cases h : x = ',' ∧ z = t
      · exfalso
        have : ([x] : List Char).getLast? = some ',' := by rw [h.1]; rfl
        exact hcond this (by rw [h.2]; rfl)
      · rw [if_neg h]
        simp [delCommaBefore]
  · intro x y r ihr ihyr b hcond
    simp only [List.cons_append]
    rw [del_cons₂, del_cons₂]
    by_cases h : x = ',' ∧ y = t
    · rw [if_pos h, if_pos h]
      by_cases hne : r = []
      · subst hne
        simp [delCommaBefore]
      · have hcond' : r.getLast? = some ',' → b.head? ≠ some t := by
          intro hlast
          refine hcond ?_
          rw [getLast?_cons_of_ne_nil (show (y : Char) :: r ≠ [] from by simp),
            getLast?_cons_of_ne_nil hne]
          exact hlast
        rw [ihr b hcond']
        simp
    · rw [if_neg h, if_neg h]
      have hne : (y : Char) :: r ≠ [] := by simp
      have hcond' : (y :: r).getLast? = some ',' → b.head? ≠ some t := by
        intro hlast
        refine hcond ?_
        rw [getLast?_cons_of_ne_nil hne]
        exact hlast
      show x :: delCommaBefore t ((y :: r) ++ b) =
        (x :: delCommaBefore t (y :: r)) ++ delCommaBefore t b
      rw [ihyr b hcond']
      simp

-- Locating the first occurrence of a character.

theorem findIdx_first (c : Char) (pre post : List Char) (h : c ∉ pre) :
    (pre ++ c :: post).findIdx? (· == c) = some pre.length := by
  rw [List.findIdx?_append]
  have h1 : pre.findIdx? (· == c) = none := by
    rw [List.findIdx?_eq_none_iff]
    intro x hx
    simp only [beq_eq_false_iff_ne, ne_eq]
    intro hcon
    exact h (hcon ▸ hx)
  rw [h1]
  simp

theorem pyFindIdx_spec (c : Char) (pre post : List Char) (h : c ∉ pre) :
    pyFindIdx c (pre ++ c :: post) = some pre.length :=
  findIdx_first c pre post h

theorem pyRFindIdx_spec (c : Char) (L B : List Char) (h : c ∉ B) :
    pyRFindIdx c (L ++ c :: B) = some L.length := by
  unfold pyRFindIdx
  have hrev : (L ++ c :: B).reverse = B.reverse ++ c :: L.reverse := by
    simp
  rw [hrev, findIdx_first c B.reverse L.reverse (by simpa using h)]
  simp only [Option.map_some']
  congr 1
  simp only [List.length_append, List.length_cons, List.length_reverse]
  omega

/-- Recover the structural decomposition from a successful `find`. -/
theorem pyFindIdx_decomp {c : Char} {s : List Char} {i : Nat}
    (h : pyFindIdx c s = some i) :
    i < s.length ∧ s = s.take i ++ c :: s.drop (i + 1) ∧ c ∉ s.take i := by
  unfold pyFindIdx at h
  rw [List.findIdx?_eq_some_iff_getElem] at h
  obtain ⟨hlen, hp, hmin⟩ := h
  have hc : s[i] = c := by simpa using hp
  refine ⟨hlen, ?_, ?_⟩
  · conv_lhs => rw [← List.take_append_drop i s]
    rw [List.drop_eq_getElem_cons hlen, hc]
  · intro hmem
    rw [List.mem_iff_getElem] at hmem
    obtain ⟨jj, hj, hje⟩ := hmem
    have hj2 : jj < i := by
      have := List.length_take_le i s
      omega
    have hq : (s.take i)[jj]? = s[jj]? := List.getElem?_take_of_lt hj2
    rw [List.getElem?_eq_getElem hj, hje] at hq
    have hjlen : jj < s.length := by omega
    rw [List.getElem?_eq_getElem hjlen] at hq
    have hsc : s[jj] = c := by injection hq with hq2; exact hq2.symm
    have hcon := hmin jj hj2
    rw [hsc] at hcon
    simp at hcon

/-- Recover the structural decomposition from a successful `rfind`. -/
theorem pyRFindIdx_decomp {c : Char} {s : List Char} {j : Nat}
    (h : pyRFindIdx c s = some j) :
    j < s.length ∧ s = s.take j ++ c :: s.drop (j + 1) ∧ c ∉ s.drop (j + 1) := by
  unfold pyRFindIdx at h
  cases hk : s.reverse.findIdx? (· == c) with
  | none => rw [hk] at h; cases h
  | some k =>
    rw [hk] at h
    simp only [Option.map_some', Option.some.injEq] at h
    obtain ⟨hklen, hkdec, hknot⟩ :=
      pyFindIdx_decomp (show pyFindIdx c s.reverse = some k from hk)
    rw [List.length_reverse] at hklen
    have hs : s = (s.reverse.drop (k + 1)).reverse ++ c :: (s.reverse.take k).reverse := by
      conv_lhs => rw [← List.reverse_reverse s, hkdec]
      simp
    have hlenL : ((s.reverse.drop (k + 1)).reverse).length = s.length - 1 - k := by
      simp only [List.length_reverse, List.length_drop]
      omega
    have hj : j < s.length := by omega
    have htake : s.take j = (s.reverse.drop (k + 1)).reverse := by
      conv_lhs => rw [hs]
      exact List.take_left' (by rw [hlenL]; omega)
    have hdrop : s.drop (j + 1) = (s.reverse.take k).reverse := by
      conv_lhs =>
        rw [hs, show (s.reverse.drop (k + 1)).reverse ++ c :: (s.reverse.take k).reverse
          = ((s.reverse.drop (k + 1)).reverse ++ [c]) ++ (s.reverse.take k).reverse
          from by simp]
      exact List.drop_left' (by
        simp only [List.length_append, List.length_cons, List.length_nil, hlenL]
        omega)
    refine ⟨hj, ?_, ?_⟩
    · rw [htake, hdrop]
      exact hs
    · rw [hdrop]
      simpa using hknot

-- First-open / last-close decompositions.

/-- `s` splits at its first opening brace and last closing brace, with the
opening one strictly before the closing one. -/
def BraceDecomp (s : List Char) : Prop :=
  ∃ A M B, s = A ++ '\x7b' :: M ++ '\x7d' :: B ∧ '\x7b' ∉ A ∧ '\x7d' ∉ B

theorem braceDecomp_of_cond {s : List Char} {i j : Nat}
    (hf : pyFindIdx '\x7b' s = some i) (hr : pyRFindIdx '\x7d' s = some j)
    (hij : i < j + 1) : BraceDecomp s := by
  obtain ⟨hilen, hidec, hinot⟩ := pyFindIdx_decomp hf
  obtain ⟨hjlen, hjdec, hjnot⟩ := pyRFindIdx_decomp hr
  have hgi : s[i]? = some '\x7b' := by
    conv_lhs => rw [hidec]
    rw [List.getElem?_append_right (by
      have := List.length_take_le i s
      have : (s.take i).length = i := by rw [List.length_take]; omega
      omega)]
    have : (s.take i).length = i := by rw [List.length_take]; omega
    rw [this]
    simp
  have hgj : s[j]? = some '\x7d' := by
    conv_lhs => rw [hjdec]
    rw [List.getElem?_append_right (by
      have : (s.take j).length = j := by rw [List.length_take]; omega
      omega)]
    have : (s.take j).length = j := by rw [List.length_take]; omega
    rw [this]
    simp
  have hij' : i < j := by
    rcases Nat.lt_or_ge i j with h | h
    · exact h
    · exfalso
      have : i = j := by omega
      rw [this, hgj] at hgi
      cases hgi
  refine ⟨s.take i, (s.drop (i + 1)).take (j - i - 1), s.drop (j + 1), ?_, hinot, hjnot⟩
  have hdropj : s.drop j = '\x7d' :: s.drop (j + 1) := by
    rw [List.drop_eq_getElem_cons hjlen]
    congr 1
    have := List.getElem?_eq_getElem hjlen
    rw [this] at hgj
    injection hgj
  have hsplit : s.drop (i + 1) =
      (s.drop (i + 1)).take (j - i - 1) ++ '\x7d' :: s.drop (j + 1) := by
    conv_lhs => rw [← List.take_append_drop (j - i - 1) (s.drop (i + 1))]
    congr 1
    rw [List.drop_drop]
    rw [show i + 1 + (j - i - 1) = j from by omega]
    exact hdropj
  conv_lhs => rw [hidec, hsplit]
  simp

theorem braceDecomp_cond {A M B : List Char} (hA : '\x7b' ∉ A) (hB : '\x7d' ∉ B) :
    pyFindIdx '\x7b' (A ++ '\x7b' :: M ++ '\x7d' :: B) = some A.length
    ∧ pyRFindIdx '\x7d' (A ++ '\x7b' :: M ++ '\x7d' :: B)
        = some (A.length + M.length + 1)
    ∧ (((A ++ '\x7b' :: M ++ '\x7d' :: B).drop A.length).take
        (A.length + M.length + 1 + 1 - A.length)) = '\x7b' :: M ++ ['\x7d'] := by
  refine ⟨?_, ?_, ?_⟩
  · rw [show A ++ '\x7b' :: M ++ '\x7d' :: B = A ++ '\x7b' :: (M ++ '\x7d' :: B)
      from by simp]
    exact pyFindIdx_spec '\x7b' A (M ++ '\x7d' :: B) hA
  · have hres := pyRFindIdx_spec '\x7d' (A ++ '\x7b' :: M) B hB
    rw [show (A ++ '\x7b' :: M) ++ '\x7d' :: B = A ++ '\x7b' :: M ++ '\x7d' :: B
      from by simp] at hres
    rw [hres]
    congr 1
    simp only [List.length_append, List.length_cons]
    omega
  · rw [show A ++ '\x7b' :: M ++ '\x7d' :: B
      = A ++ (('\x7b' :: M ++ ['\x7d']) ++ B) from by simp]
    rw [List.drop_left' rfl]
    exact List.take_left' (by simp; omega)

-- Whitespace and newline-replacement facts.

theorem wsToSpace_eq_of_nonws {c : Char} (hc : isPyWs c = false) (x : Char) :
    wsToSpace x = c ↔ x = c := by
  unfold wsToSpace
  by_cases hx : (x = '\n' || x = '\r' || x = '\t') = true
  · rw [if_pos hx]
    constructor
    · intro hsp
      exfalso
      rw [← hsp] at hc
      simp [isPyWs] at hc
    · intro hxc
      exfalso
      subst hxc
      simp only [Bool.or_eq_true, decide_eq_true_eq] at hx
      rcases hx with (h | h) | h <;> rw [h] at hc <;> simp [isPyWs] at hc
  · rw [if_neg hx]

theorem wsToSpace_eq_self_of_nonws {x : Char} (hx : isPyWs x = false) :
    wsToSpace x = x := by
  unfold wsToSpace
  rw [if_neg]
  intro hcon
  simp only [Bool.or_eq_true, decide_eq_true_eq] at hcon
  rcases hcon with (h | h) | h <;> rw [h] at hx <;> simp [isPyWs] at hx

theorem replWS_mem_iff {c : Char} (hc : isPyWs c = false) (l : List Char) :
    c ∈ replWS l ↔ c ∈ l := by
  unfold replWS
  rw [List.mem_map]
  constructor
  · rintro ⟨a, ha, hac⟩
    rwa [(wsToSpace_eq_of_nonws hc a).mp hac] at ha
  · intro h
    exact ⟨c, h, (wsToSpace_eq_of_nonws hc c).mpr rfl⟩

theorem isPyWs_wsToSpace (x : Char) : isPyWs (wsToSpace x) = isPyWs x := by
  unfold wsToSpace
  by_cases hx : (x = '\n' || x = '\r' || x = '\t') = true
  · rw [if_pos hx]
    simp only [Bool.or_eq_true, decide_eq_true_eq] at hx
    rcases hx with (h | h) | h <;> subst h <;> rfl
  · rw [if_neg hx]

theorem replWS_append (a b : List Char) :
    replWS (a ++ b) = replWS a ++ replWS b := List.map_append wsToSpace a b

theorem replWS_cons (x : Char) (l : List Char) :
    replWS (x :: l) = wsToSpace x :: replWS l := rfl

theorem ws_not_mem {c : Char} (hc : isPyWs c = false) {w : List Char}
    (hw : ∀ a ∈ w, isPyWs a = true) : c ∉ w := by
  intro hmem
  rw [hw c hmem] at hc
  cases hc

theorem ws_getLast_ne {c : Char} (hc : isPyWs c = false) {w : List Char}
    (hw : ∀ a ∈ w, isPyWs a = true) : w.getLast? ≠ some c := by
  intro hcon
  have hmem : c ∈ w :=
    List.mem_of_mem_getLast? (show c ∈ w.getLast? from by rw [hcon]; rfl)
  exact ws_not_mem hc hw hmem

theorem ws_head_ne {c : Char} (hc : isPyWs c = false) {w : List Char}
    (hw : ∀ a ∈ w, isPyWs a = true) : w.head? ≠ some c := by
  intro hcon
  have hmem : c ∈ w := by
    cases w with
    | nil => cases hcon
    | cons x l =>
      have hx : x = c := by injection hcon
      rw [← hx]
      exact List.mem_cons_self x l
  exact ws_not_mem hc hw hmem

-- Decomposing a string around its stripped core.

theorem stripWS_decomp (s : List Char) :
    ∃ w1 w2, s = w1 ++ stripWS s ++ w2
      ∧ (∀ a ∈ w1, isPyWs a = true) ∧ (∀ a ∈ w2, isPyWs a = true) := by
  refine ⟨s.takeWhile isPyWs, ((lstripWS s).reverse.takeWhile isPyWs).reverse,
    ?_, ?_, ?_⟩
  · have hu2 : lstripWS s =
        rstripWS (lstripWS s) ++ ((lstripWS s).reverse.takeWhile isPyWs).reverse := by
      unfold rstripWS
      conv_lhs => rw [← List.reverse_reverse (lstripWS s),
        ← List.takeWhile_append_dropWhile isPyWs (lstripWS s).reverse]
      rw [List.reverse_append]
    have hu : s = s.takeWhile isPyWs ++ lstripWS s :=
      (List.takeWhile_append_dropWhile isPyWs s).symm
    conv_lhs => rw [hu, hu2]
    rw [List.append_assoc]
    rfl
  · intro a ha
    exact List.mem_takeWhile_imp ha
  · intro a ha
    rw [List.mem_reverse] at ha
    exact List.mem_takeWhile_imp ha

theorem stripWS_head_nonws (s : List Char) :
    ∀ h, (stripWS s).head? = some h → isPyWs h = false := by
  intro h hh
  have hpre : stripWS s <+: lstripWS s := by
    have h1 := List.dropWhile_suffix (l := (lstripWS s).reverse) isPyWs
    have h2 := List.reverse_prefix.mpr h1
    rw [List.reverse_reverse] at h2
    exact h2
  obtain ⟨tl, htl⟩ := hpre
  have hu : (lstripWS s).head? = some h := by
    rw [← htl]
    cases hcase : stripWS s with
    | nil => rw [hcase] at hh; cases hh
    | cons x l =>
      rw [hcase] at hh
      have hx : x = h := by injection hh
      rw [List.cons_append]
      simpa using hx
  have hres := List.head?_dropWhile_not isPyWs s
  unfold lstripWS at hu
  rw [hu] at hres
  exact hres

theorem stripWS_last_nonws (s : List Char) :
    ∀ h, (stripWS s).getLast? = some h → isPyWs h = false := by
  intro h hh
  unfold stripWS rstripWS at hh
  rw [List.getLast?_reverse] at hh
  have := List.head?_dropWhile_not isPyWs (lstripWS s).reverse
  rw [hh] at this
  exact this

theorem stripWS_eq_self {s : List Char}
    (hhead : ∀ h, s.head? = some h → isPyWs h = false)
    (hlast : ∀ h, s.getLast? = some h → isPyWs h = false) :
    stripWS s = s := by
  unfold stripWS rstripWS lstripWS
  have h1 : s.dropWhile isPyWs = s := by
    cases s with
    | nil => rfl
    | cons x l =>
      rw [List.dropWhile_cons, if_neg]
      rw [hhead x rfl]
      simp
  rw [h1]
  have h2 : s.reverse.dropWhile isPyWs = s.reverse := by
    cases hrev : s.reverse with
    | nil => rfl
    | cons x l =>
      rw [List.dropWhile_cons, if_neg]
      have : s.getLast? = some x := by
        rw [← List.head?_reverse, hrev]
        rfl
      rw [hlast x this]
      simp
  rw [h2, List.reverse_reverse]

theorem stripWS_of_all_ws {s : List Char} (hs : ∀ a ∈ s, isPyWs a = true) :
    stripWS s = [] := by
  unfold stripWS lstripWS rstripWS
  have h1 : s.dropWhile isPyWs = [] := by
    rw [List.dropWhile_eq_nil_iff]
    exact fun x hx => hs x hx
  rw [h1]
  rfl

theorem stripWS_ws_wrap {w x w' : List Char}
    (hw : ∀ a ∈ w, isPyWs a = true) (hw' : ∀ a ∈ w', isPyWs a = true)
    (hxh : ∀ h, x.head? = some h → isPyWs h = false)
    (hxl : ∀ h, x.getLast? = some h → isPyWs h = false) :
    stripWS (w ++ x ++ w') = x := by
  cases hx : x with
  | nil =>
    subst hx
    refine stripWS_of_all_ws ?_
    intro a ha
    simp only [List.append_nil, List.mem_append] at ha
    rcases ha with h | h
    · exact hw a h
    · exact hw' a h
  | cons hd tl =>
    rw [← hx]
    unfold stripWS lstripWS rstripWS
    have h1 : (w ++ x ++ w').dropWhile isPyWs = x ++ w' := by
      rw [List.append_assoc, List.dropWhile_append_of_pos hw]
      cases hx2 : x with
      | nil => rw [hx2] at hx; cases hx
      | cons a l =>
        rw [List.cons_append, List.dropWhile_cons, if_neg]
        rw [show isPyWs a = false from hxh a (by rw [hx2]; rfl)]
        simp
    rw [h1]
    have h2 : (x ++ w').reverse.dropWhile isPyWs = x.reverse := by
      rw [List.reverse_append, List.dropWhile_append_of_pos
        (by intro a ha; exact hw' a (List.mem_reverse.mp ha))]
      cases hx3 : x.reverse with
      | nil =>
        exfalso
        rw [List.reverse_eq_nil_iff] at hx3
        rw [hx3] at hx
        cases hx
      | cons a l =>
        rw [List.dropWhile_cons, if_neg, ← hx3]
        have : x.getLast? = some a := by
          rw [← List.head?_reverse, hx3]
          rfl
        rw [hxl a this]
        simp
    rw [h2, List.reverse_reverse]

-- The brace-pair predicate, invariant under normalization.

/-- Some closing brace occurs at or after the first opening brace. -/
def hpB (s : List Char) : Prop :=
  '\x7d' ∈ s.dropWhile (fun c => c != '\x7b')

theorem hpB_cons_of_ne {x : Char} (hx : x ≠ '\x7b') (l : List Char) :
    hpB (x :: l) ↔ hpB l := by
  unfold hpB
  rw [List.dropWhile_cons, if_pos (by simpa using hx)]

theorem hpB_cons_brace (l : List Char) : hpB ('\x7b' :: l) ↔ '\x7d' ∈ l := by
  unfold hpB
  rw [List.dropWhile_cons, if_neg (by simp)]
  simp

theorem first_occ_decomp (c : Char) : ∀ l : List Char, c ∈ l →
    ∃ pre post, l = pre ++ c :: post ∧ c ∉ pre := by
  intro l
  induction l with
  | nil => intro h; cases h
  | cons x xs ih =>
    intro h
    by_cases hx : x = c
    · exact ⟨[], xs, by rw [hx]; rfl, by simp⟩
    · have hmem : c ∈ xs := by
        rcases List.mem_cons.mp h with h1 | h1
        · exact absurd h1.symm hx
        · exact h1
      obtain ⟨pre, post, hdec, hnot⟩ := ih hmem
      exact ⟨x :: pre, post, by rw [hdec]; rfl, by
        intro hcon
        rcases List.mem_cons.mp hcon with h1 | h1
        · exact hx h1.symm
        · exact hnot h1⟩

theorem last_occ_decomp (c : Char) (l : List Char) (h : c ∈ l) :
    ∃ pre post, l = pre ++ c :: post ∧ c ∉ post := by
  obtain ⟨p, q, hdec, hnot⟩ := first_occ_decomp c l.reverse (List.mem_reverse.mpr h)
  refine ⟨q.reverse, p.reverse, ?_, by simpa using hnot⟩
  have := congrArg List.reverse hdec
  rw [List.reverse_reverse] at this
  rw [this]
  simp

theorem braceDecomp_iff_hpB (s : List Char) : BraceDecomp s ↔ hpB s := by
  constructor
  · rintro ⟨A, M, B, hdec, hA, hB⟩
    subst hdec
    unfold hpB
    rw [show A ++ '\x7b' :: M ++ '\x7d' :: B = A ++ ('\x7b' :: (M ++ '\x7d' :: B))
      from by simp]
    rw [List.dropWhile_append_of_pos (by
      intro a ha
      simp only [bne_iff_ne, ne_eq]
      intro hcon
      exact hA (hcon ▸ ha))]
    rw [List.dropWhile_cons, if_neg (by simp)]
    simp
  · intro h
    unfold hpB at h
    have hne : s.dropWhile (fun c => c != '\x7b') ≠ [] := by
      intro hcon
      rw [hcon] at h
      cases h
    have hhead : ∃ v, s.dropWhile (fun c => c != '\x7b') = '\x7b' :: v := by
      cases hcase : s.dropWhile (fun c => c != '\x7b') with
      | nil => exact absurd hcase hne
      | cons x v =>
        have hx := List.head?_dropWhile_not (fun c => c != '\x7b') s
        rw [hcase] at hx
        simp only [List.head?_cons] at hx
        have hx2 : x = '\x7b' := by simpa using hx
        exact ⟨v, by rw [hx2]⟩
    obtain ⟨v, hv⟩ := hhead
    have hsplit : s = s.takeWhile (fun c => c != '\x7b') ++ '\x7b' :: v := by
      conv_lhs => rw [← List.takeWhile_append_dropWhile (fun c => c != '\x7b') s]
      rw [hv]
    have hmem : '\x7d' ∈ v := by
      rw [hv] at h
      rcases List.mem_cons.mp h with h1 | h1
      · cases h1
      · exact h1
    obtain ⟨M, B, hMB, hBnot⟩ := last_occ_decomp '\x7d' v hmem
    refine ⟨s.takeWhile (fun c => c != '\x7b'), M, B, ?_, ?_, hBnot⟩
    · conv_lhs => rw [hsplit]
      rw [hMB]
      simp
    · intro hcon
      have := List.mem_takeWhile_imp hcon
      simp at this

theorem hpB_del (t : Char) (ht : t ≠ '\x7b') : ∀ s : List Char,
    hpB (delCommaBefore t s) ↔ hpB s := by
  apply twoStepInduction
  · exact Iff.rfl
  · intro x; exact Iff.rfl
  · intro x y r ihr ihyr
    rw [del_cons₂]
    by_cases h : x = ',' ∧ y = t
    · rw [if_pos h]
      have hx : x ≠ '\x7b' := by rw [h.1]; decide
      have hy : y ≠ '\x7b' := by rw [h.2]; exact ht
      rw [hpB_cons_of_ne hy, hpB_cons_of_ne hx, hpB_cons_of_ne hy]
      exact ihr
    · rw [if_neg h]
      by_cases hx : x = '\x7b'
      · subst hx
        rw [hpB_cons_brace, hpB_cons_brace]
        exact del_mem_iff t '\x7d' (by decide) (y :: r)
      · rw [hpB_cons_of_ne hx, hpB_cons_of_ne hx]
        exact ihyr

theorem hpB_contract (s : List Char) : hpB (contractCommas s) ↔ hpB s := by
  unfold contractCommas
  rw [hpB_del ']' (by decide), hpB_del '\x7d' (by decide)]

theorem hpB_replWS (s : List Char) : hpB (replWS s) ↔ hpB s := by
  unfold hpB replWS
  rw [List.dropWhile_map]
  have hfun : ((fun c => c != '\x7b') ∘ wsToSpace) = (fun c => c != '\x7b') := by
    funext x
    simp only [Function.comp_apply, bne]
    by_cases hx : x = '\x7b'
    · subst hx; rfl
    · have h1 : wsToSpace x ≠ '\x7b' := fun hcon =>
        hx ((wsToSpace_eq_of_nonws (by decide) x).mp hcon)
      simp [hx, h1]
  rw [hfun]
  exact replWS_mem_iff (by decide) _

theorem hpB_ws_left {w : List Char} (hw : ∀ a ∈ w, isPyWs a = true)
    (s : List Char) : hpB (w ++ s) ↔ hpB s := by
  unfold hpB
  rw [List.dropWhile_append_of_pos (by
    intro a ha
    simp only [bne_iff_ne, ne_eq]
    intro hcon
    have := hw a ha
    rw [hcon] at this
    simp [isPyWs] at this)]

theorem hpB_ws_right {w : List Char} (hw : ∀ a ∈ w, isPyWs a = true)
    (s : List Char) : hpB (s ++ w) ↔ hpB s := by
  unfold hpB
  rw [List.dropWhile_append]
  by_cases hcase : (s.dropWhile (fun c => c != '\x7b')).isEmpty
  · rw [if_pos hcase]
    rw [List.isEmpty_iff] at hcase
    rw [hcase]
    constructor
    · intro h
      exfalso
      have hmem := (List.dropWhile_suffix (fun c => c != '\x7b')).subset h
      have := hw '\x7d' hmem
      simp [isPyWs] at this
    · intro h; cases h
  · rw [if_neg hcase]
    rw [List.mem_append]
    constructor
    · intro h
      rcases h with h | h
      · exact h
      · exfalso
        have := hw '\x7d' h
        simp [isPyWs] at this
    · exact Or.inl

-- Head/last preservation and splitting for the contraction passes.

theorem wsToSpace_obrace : wsToSpace '\x7b' = '\x7b' := rfl

theorem wsToSpace_cbrace : wsToSpace '\x7d' = '\x7d' := rfl

theorem head?_append_of_ne_nil {S B : List Char} (hS : S ≠ []) :
    (S ++ B).head? = S.head? := by
  cases S with
  | nil => exact absurd rfl hS
  | cons a l => rfl

theorem del_head?_of_ne_comma (t : Char) {s : List Char} {c : Char}
    (h : s.head? = some c) (hc : c ≠ ',') :
    (delCommaBefore t s).head? = some c := by
  cases s with
  | nil => cases h
  | cons a l =>
    have ha : a = c := by injection h
    subst ha
    rw [del_cons_of_ne_comma t l hc]
    rfl

theorem del_head_nonws (t : Char) (ht : isPyWs t = false) (s : List Char)
    (hs : ∀ h, s.head? = some h → isPyWs h = false) :
    ∀ h, (delCommaBefore t s).head? = some h → isPyWs h = false := by
  intro h hh
  match s with
  | [] => cases hh
  | [x] =>
    have hx : x = h := by injection hh
    exact hx ▸ hs x rfl
  | x :: y :: r =>
    rw [del_cons₂] at hh
    by_cases hcond : x = ',' ∧ y = t
    · rw [if_pos hcond] at hh
      have hy : y = h := by
        cases hr : delCommaBefore t r with
        | nil => rw [hr] at hh; injection hh
        | cons z l => rw [hr] at hh; injection hh
      rw [← hy, hcond.2]
      exact ht
    · rw [if_neg hcond] at hh
      have hx : x = h := by injection hh
      exact hx ▸ hs x rfl

theorem contract_mem_iff {c : Char} (hc : c ≠ ',') (s : List Char) :
    c ∈ contractCommas s ↔ c ∈ s := by
  unfold contractCommas
  rw [del_mem_iff ']' c hc, del_mem_iff '\x7d' c hc]

theorem contract_getLast? (s : List Char) :
    (contractCommas s).getLast? = s.getLast? := by
  unfold contractCommas
  rw [del_getLast?, del_getLast?]

theorem contract_head?_brace {s : List Char} (h : s.head? = some '\x7b') :
    (contractCommas s).head? = some '\x7b' := by
  unfold contractCommas
  exact del_head?_of_ne_comma ']'
    (del_head?_of_ne_comma '\x7d' h (by decide)) (by decide)

theorem contract_head_nonws (s : List Char)
    (hs : ∀ h, s.head? = some h → isPyWs h = false) :
    ∀ h, (contractCommas s).head? = some h → isPyWs h = false := by
  unfold contractCommas
  exact del_head_nonws ']' (by decide) _
    (del_head_nonws '\x7d' (by decide) s hs)

/-- Splitting the contraction around a segment that starts with `\x7b` and
ends with `\x7d`: no deletion straddles the boundaries. -/
theorem contract_append₃ (A S B : List Char) (hhead : S.head? = some '\x7b')
    (hlast : S.getLast? = some '\x7d') :
    contractCommas (A ++ S ++ B) =
      contractCommas A ++ contractCommas S ++ contractCommas B := by
  have hS : S ≠ [] := by intro h; rw [h] at hhead; cases hhead
  have hSBhead : (S ++ B).head? = some '\x7b' := by
    rw [head?_append_of_ne_nil hS]; exact hhead
  unfold contractCommas
  have h1 : delCommaBefore '\x7d' (A ++ S ++ B)
      = delCommaBefore '\x7d' A ++
        (delCommaBefore '\x7d' S ++ delCommaBefore '\x7d' B) := by
    rw [List.append_assoc,
      del_append '\x7d' A (S ++ B) (by intro _; rw [hSBhead]; decide),
      del_append '\x7d' S B (by
        intro hcon
        rw [hlast] at hcon
        exact absurd hcon (by decide))]
  have hS1 : delCommaBefore '\x7d' S ≠ [] := del_ne_nil '\x7d' S hS
  have hS1head : (delCommaBefore '\x7d' S).head? = some '\x7b' :=
    del_head?_of_ne_comma '\x7d' hhead (by decide)
  have hS1last : (delCommaBefore '\x7d' S).getLast? = some '\x7d' := by
    rw [del_getLast?]; exact hlast
  rw [h1]
  rw [del_append ']' (delCommaBefore '\x7d' A)
    (delCommaBefore '\x7d' S ++ delCommaBefore '\x7d' B) (by
      intro _
      rw [head?_append_of_ne_nil hS1, hS1head]
      decide),
    del_append ']' (delCommaBefore '\x7d' S) (delCommaBefore '\x7d' B) (by
      intro hcon
      rw [hS1last] at hcon
      exact absurd hcon (by decide))]
  rw [List.append_assoc]

/-- The contraction of a `\x7b`-headed, `\x7d`-ended segment keeps that
shape. -/
theorem contract_shape {S : List Char} (hhead : S.head? = some '\x7b')
    (hlast : S.getLast? = some '\x7d') :
    ∃ mid, contractCommas S = '\x7b' :: mid ++ ['\x7d'] := by
  have hchead := contract_head?_brace hhead
  have hclast : (contractCommas S).getLast? = some '\x7d' := by
    rw [contract_getLast?]; exact hlast
  cases hc : contractCommas S with
  | nil => rw [hc] at hchead; cases hchead
  | cons a l =>
    have ha : a = '\x7b' := by rw [hc] at hchead; simpa using hchead
    by_cases hlne : l = []
    · exfalso
      rw [hc, hlne, ha] at hclast
      simp at hclast
    · have hdec : l.dropLast ++ [l.getLast hlne] = l := List.dropLast_append_getLast hlne
      have hlast2 : l.getLast hlne = '\x7d' := by
        have h3 : l.getLast? = some '\x7d' := by
          rw [hc, getLast?_cons_of_ne_nil hlne] at hclast
          exact hclast
        rw [List.getLast?_eq_getLast l hlne] at h3
        injection h3
      have hl2 : l = l.dropLast ++ ['\x7d'] := by
        conv_lhs => rw [← hdec]
        rw [hlast2]
      refine ⟨l.dropLast, ?_⟩
      rw [ha]
      conv_lhs => rw [hl2]
      simp

theorem contract_ws {w : List Char} (hw : ∀ a ∈ w, isPyWs a = true) :
    contractCommas w = w := by
  unfold contractCommas
  have hnc : ',' ∉ w := ws_not_mem (by decide) hw
  rw [del_eq_self_of_no_comma '\x7d' w hnc, del_eq_self_of_no_comma ']' w hnc]

/-- Contraction ignores all-whitespace wrapping. -/
theorem contract_ws_wrap {w x w' : List Char}
    (hw : ∀ a ∈ w, isPyWs a = true) (hw' : ∀ a ∈ w', isPyWs a = true) :
    contractCommas (w ++ x ++ w') = w ++ contractCommas x ++ w' := by
  have hwnc : ',' ∉ w := ws_not_mem (by decide) hw
  have hwnc' : ',' ∉ w' := ws_not_mem (by decide) hw'
  unfold contractCommas
  have h1 : delCommaBefore '\x7d' (w ++ x ++ w')
      = w ++ (delCommaBefore '\x7d' x ++ w') := by
    rw [List.append_assoc,
      del_append '\x7d' w (x ++ w') (fun hcon _ => absurd hcon (ws_getLast_ne (by decide) hw)),
      del_append '\x7d' x w' (fun _ => ws_head_ne (by decide) hw'),
      del_eq_self_of_no_comma '\x7d' w hwnc, del_eq_self_of_no_comma '\x7d' w' hwnc']
  rw [h1]
  have hlast1 : ∀ hq, (delCommaBefore '\x7d' x).getLast? = some hq →
      x.getLast? = some hq := by
    intro hq hqq
    rw [del_getLast?] at hqq
    exact hqq
  rw [del_append ']' w (delCommaBefore '\x7d' x ++ w')
      (fun hcon _ => absurd hcon (ws_getLast_ne (by decide) hw)),
    del_append ']' (delCommaBefore '\x7d' x) w'
      (fun _ => ws_head_ne (by decide) hw'),
    del_eq_self_of_no_comma ']' w hwnc, del_eq_self_of_no_comma ']' w' hwnc',
    List.append_assoc]

theorem replWS_head_nonws (s : List Char)
    (hs : ∀ h, s.head? = some h → isPyWs h = false) :
    ∀ h, (replWS s).head? = some h → isPyWs h = false := by
  intro h hh
  cases s with
  | nil => cases hh
  | cons x l =>
    rw [replWS_cons] at hh
    have hx : wsToSpace x = h := by injection hh
    rw [← hx, isPyWs_wsToSpace]
    exact hs x rfl

theorem replWS_getLast?_nonws (s : List Char)
    (hs : ∀ h, s.getLast? = some h → isPyWs h = false) :
    ∀ h, (replWS s).getLast? = some h → isPyWs h = false := by
  intro h hh
  rw [← List.head?_reverse] at hh
  unfold replWS at hh
  rw [← List.map_reverse] at hh
  have hrev : ∀ q, s.reverse.head? = some q → isPyWs q = false := by
    intro q hq
    rw [List.head?_reverse] at hq
    exact hs q hq
  exact replWS_head_nonws s.reverse hrev h hh

theorem replWS_all_ws {w : List Char} (hw : ∀ a ∈ w, isPyWs a = true) :
    ∀ a ∈ replWS w, isPyWs a = true := by
  intro a ha
  unfold replWS at ha
  rw [List.mem_map] at ha
  obtain ⟨b, hb, hba⟩ := ha
  rw [← hba, isPyWs_wsToSpace]
  exact hw b hb

-- Branch equations for the two candidate-selection functions.

theorem extractCandidate_slice {raw : List Char} {i j : Nat}
    (hf : pyFindIdx '\x7b' (stripWS raw) = some i)
    (hr : pyRFindIdx '\x7d' (stripWS raw) = some j) (hij : i < j + 1) :
    extractCandidate raw = normalizeJson (((stripWS raw).drop i).take (j + 1 - i)) := by
  unfold extractCandidate
  dsimp only
  rw [hf, hr]
  dsimp only
  rw [if_pos hij]

theorem extractCandidate_whole {raw : List Char}
    (h : ∀ i j, pyFindIdx '\x7b' (stripWS raw) = some i →
      pyRFindIdx '\x7d' (stripWS raw) = some j → ¬ i < j + 1) :
    extractCandidate raw = normalizeJson (stripWS raw) := by
  unfold extractCandidate
  dsimp only
  cases hf : pyFindIdx '\x7b' (stripWS raw) with
  | none =>
    cases hr : pyRFindIdx '\x7d' (stripWS raw) <;> rfl
  | some i =>
    cases hr : pyRFindIdx '\x7d' (stripWS raw) with
    | none => rfl
    | some j =>
      dsimp only
      rw [if_neg (h i j hf hr)]

theorem extractCandidateClaimed_slice {raw : List Char} {i j : Nat}
    (hf : pyFindIdx '\x7b' (normalizeJson raw) = some i)
    (hr : pyRFindIdx '\x7d' (normalizeJson raw) = some j) (hij : i < j + 1) :
    extractCandidateClaimed raw = ((normalizeJson raw).drop i).take (j + 1 - i) := by
  unfold extractCandidateClaimed
  dsimp only
  rw [hf, hr]
  dsimp only
  rw [if_pos hij]

theorem extractCandidateClaimed_whole {raw : List Char}
    (h : ∀ i j, pyFindIdx '\x7b' (normalizeJson raw) = some i →
      pyRFindIdx '\x7d' (normalizeJson raw) = some j → ¬ i < j + 1) :
    extractCandidateClaimed raw = normalizeJson raw := by
  unfold extractCandidateClaimed
  dsimp only
  cases hf : pyFindIdx '\x7b' (normalizeJson raw) with
  | none =>
    cases hr : pyRFindIdx '\x7d' (normalizeJson raw) <;> rfl
  | some i =>
    cases hr : pyRFindIdx '\x7d' (normalizeJson raw) with
    | none => rfl
    | some j =>
      dsimp only
      rw [if_neg (h i j hf hr)]

/-- C6 (amended).  The code's candidate (strip, slice from first `\x7b` to
last `\x7d`, then normalize) equals the claimed normalize-first candidate
with leading/trailing whitespace additionally stripped: when the brace pair
exists the two candidates coincide exactly, and otherwise they differ only
by the leading/trailing whitespace the source's initial `.strip()`
removes. -/
theorem extract_candidate_refines_claimed (raw : List Char) :
    extractCandidate raw = stripWS (extractCandidateClaimed raw) := by
  obtain ⟨W1, W2, hdec, hW1, hW2⟩ := stripWS_decomp raw
  by_cases hbd : BraceDecomp (stripWS raw)
  · obtain ⟨A, M, B, hCdec, hA, hB⟩ := hbd
    have hcond := braceDecomp_cond (M := M) hA hB
    have hf' : pyFindIdx '\x7b' (stripWS raw) = some A.length := by
      rw [hCdec]; exact hcond.1
    have hr' : pyRFindIdx '\x7d' (stripWS raw) = some (A.length + M.length + 1) := by
      rw [hCdec]; exact hcond.2.1
    have hcode := extractCandidate_slice hf' hr' (by omega)
    have hcode2 : extractCandidate raw = normalizeJson ('\x7b' :: M ++ ['\x7d']) := by
      rw [hcode]
      congr 1
      rw [hCdec]
      exact hcond.2.2
    have hreplC : replWS (stripWS raw)
        = replWS A ++ '\x7b' :: replWS M ++ '\x7d' :: replWS B := by
      rw [hCdec]
      unfold replWS
      simp [wsToSpace_obrace, wsToSpace_cbrace]
    have hreplraw : replWS raw
        = (replWS W1 ++ replWS A) ++ ('\x7b' :: replWS M ++ ['\x7d'])
          ++ (replWS B ++ replWS W2) := by
      conv_lhs => rw [hdec]
      rw [replWS_append, replWS_append, hreplC]
      simp
    have hN : normalizeJson raw
        = contractCommas (replWS W1 ++ replWS A)
          ++ contractCommas ('\x7b' :: replWS M ++ ['\x7d'])
          ++ contractCommas (replWS B ++ replWS W2) := by
      unfold normalizeJson
      rw [hreplraw]
      exact contract_append₃ _ _ _ rfl (List.getLast?_concat _)
    obtain ⟨mid, hmid⟩ :=
      contract_shape (S := '\x7b' :: replWS M ++ ['\x7d']) rfl (List.getLast?_concat _)
    have hL0mem : '\x7b' ∉ contractCommas (replWS W1 ++ replWS A) := by
      rw [contract_mem_iff (by decide), List.mem_append]
      rintro (hcon | hcon)
      · exact ws_not_mem (by decide) hW1 ((replWS_mem_iff (by decide) W1).mp hcon)
      · exact hA ((replWS_mem_iff (by decide) A).mp hcon)
    have hR0mem : '\x7d' ∉ contractCommas (replWS B ++ replWS W2) := by
      rw [contract_mem_iff (by decide), List.mem_append]
      rintro (hcon | hcon)
      · exact hB ((replWS_mem_iff (by decide) B).mp hcon)
      · exact ws_not_mem (by decide) hW2 ((replWS_mem_iff (by decide) W2).mp hcon)
    have hNdec : normalizeJson raw
        = contractCommas (replWS W1 ++ replWS A) ++ '\x7b' :: mid
          ++ '\x7d' :: contractCommas (replWS B ++ replWS W2) := by
      rw [hN, hmid]
      simp
    have hcond2 := braceDecomp_cond (M := mid) hL0mem hR0mem
    have hf2 : pyFindIdx '\x7b' (normalizeJson raw)
        = some (contractCommas (replWS W1 ++ replWS A)).length := by
      rw [hNdec]; exact hcond2.1
    have hr2 : pyRFindIdx '\x7d' (normalizeJson raw)
        = some ((contractCommas (replWS W1 ++ replWS A)).length + mid.length + 1) := by
      rw [hNdec]; exact hcond2.2.1
    have hclaim : extractCandidateClaimed raw = '\x7b' :: mid ++ ['\x7d'] := by
      rw [extractCandidateClaimed_slice hf2 hr2 (by omega), hNdec]
      exact hcond2.2.2
    have hnorm : normalizeJson ('\x7b' :: M ++ ['\x7d'])
        = contractCommas ('\x7b' :: replWS M ++ ['\x7d']) := by
      unfold normalizeJson
      congr 1
      unfold replWS
      simp [wsToSpace_obrace, wsToSpace_cbrace]
    rw [hcode2, hclaim, hnorm, hmid]
    refine (stripWS_eq_self ?_ ?_).symm
    · intro h hh
      have hv : h = '\x7b' := by
        have h0 : ('\x7b' :: mid ++ ['\x7d'] : List Char).head? = some '\x7b' := rfl
        rw [h0] at hh
        injection hh with hv2
        exact hv2.symm
      rw [hv]
      decide
    · intro h hh
      have hv : h = '\x7d' := by
        rw [List.getLast?_concat] at hh
        injection hh with hv2
        exact hv2.symm
      rw [hv]
      decide
  · have hcode : extractCandidate raw = normalizeJson (stripWS raw) := by
      refine extractCandidate_whole ?_
      intro i j hf hr hij
      exact hbd (braceDecomp_of_cond hf hr hij)
    have htrans : hpB (normalizeJson raw) ↔ hpB (stripWS raw) := by
      unfold normalizeJson
      rw [hpB_contract, hpB_replWS]
      conv_lhs => rw [hdec]
      rw [List.append_assoc, hpB_ws_left hW1, hpB_ws_right hW2]
    have hbdN : ¬ BraceDecomp (normalizeJson raw) := by
      intro hcon
      apply hbd
      rw [braceDecomp_iff_hpB] at hcon ⊢
      exact htrans.mp hcon
    have hclaim : extractCandidateClaimed raw = normalizeJson raw := by
      refine extractCandidateClaimed_whole ?_
      intro i j hf hr hij
      exact hbdN (braceDecomp_of_cond hf hr hij)
    rw [hcode, hclaim]
    have hL : normalizeJson raw
        = replWS W1 ++ contractCommas (replWS (stripWS raw)) ++ replWS W2 := by
      unfold normalizeJson
      conv_lhs => rw [hdec]
      rw [replWS_append, replWS_append]
      exact contract_ws_wrap (replWS_all_ws hW1) (replWS_all_ws hW2)
    rw [hL, stripWS_ws_wrap (replWS_all_ws hW1) (replWS_all_ws hW2)
      (contract_head_nonws _ (replWS_head_nonws _ (stripWS_head_nonws raw)))
      (by
        intro h hh
        rw [contract_getLast?] at hh
        exact replWS_getLast?_nonws _ (stripWS_last_nonws raw) h hh)]
    rfl

-- The Mistral analysis record (`mistral_analysis_agent.py`, lines 29-174).

/-- Python `dict` lookup on an association list with unique keys. -/
def lookupV : List (String × Value) → String → Option Value
  | [], _ => none
  | (k, v) :: r, key => if k = key then some v else lookupV r key

/-- Python `dict.get(key, default)`. -/
def mGet (m : List (String × Value)) (k : String) (d : Value) : Value :=
  (lookupV m k).getD d

/-- The regex fallback `re.search(r'\x7b.*\x7d', text, re.DOTALL)`: the
greedy span from the first opening brace to the last closing brace, when
the first precedes the last. -/
def searchBraceSpan (s : List Char) : Option (List Char) :=
  match pyFindIdx '\x7b' s, pyRFindIdx '\x7d' s with
  | some i, some j => if i < j then some ((s.drop i).take (j + 1 - i)) else none
  | _, _ => none

/-- The full JSON-extraction chain of `generate_comprehensive_analysis`
(`mistral_analysis_agent.py`, lines 84-124): parse the primary candidate;
on failure re-search the raw text for a brace span, normalize and parse it;
a parse result that is not a dict makes the subsequent `.get` calls raise,
which the outer handler turns into a failure. -/
def extractMapping (analysisText : List Char) : Option (List (String × Value)) :=
  match json_loads (extractCandidate analysisText) with
  | some (.obj m) => some m
  | some _ => none
  | none =>
    match searchBraceSpan analysisText with
    | some span =>
      match json_loads (normalizeJson span) with
      | some (.obj m) => some m
      | _ => none
    | none => none

/-- `pitch_type in ['audio', 'video']` for
`pitch_type = pitch_data.get('pitchType', 'text')`. -/
def isAudioVideo (pd : List (String × Value)) : Bool :=
  match lookupV pd "pitchType" with
  | some (.str s) => s = "audio" || s = "video"
  | _ => false

/-- Default `categoryScores` (source lines 131-137). -/
def defaultCategoryScores : Value :=
  .obj [("marketOpportunity", .num 85), ("businessModel", .num 80),
    ("presentation", .num 85), ("financialViability", .num 80),
    ("innovation", .num 85)]

/-- Default `feedback` (source lines 138-142). -/
def defaultFeedback : Value :=
  .obj [("strengths", .arr [.str "Good overall pitch structure"]),
    ("improvements", .arr [.str "Could use more specific data"]),
    ("recommendations", .arr [.str "Add more market research"])]

/-- Default `response` (source line 143). -/
def defaultResponse : Value :=
  .str "This pitch demonstrates strong potential with clear value proposition. Consider emphasizing the competitive advantages and market timing more prominently. The business model appears solid but could benefit from more detailed financial projections and customer acquisition strategy."

/-- Default `marketAnalysis` (source lines 145-150). -/
def defaultMarketAnalysis : Value :=
  .obj [("size", .str "TBD"), ("growth", .str "TBD"),
    ("competition", .str "TBD"), ("trends", .arr [.str "Industry growth"])]

/-- The fixed `agentsUsed` array (source lines 154-160). -/
def agentsUsedList : Value :=
  .arr [.str "Pitch Analysis Agent", .str "Mistral Analysis Agent",
    .str "Market Research Agent", .str "Financial Modeling Agent",
    .str "Presentation Enhancement Agent"]

/-- The `complete_analysis` dictionary (source lines 127-162).  `aid` is
the generated `uuid4`, `ts` the timestamp for the fallback pitch id, `cat`
the `createdAt` ISO string, and `voice` the randomly generated voice
payload — all injected, since the source makes them impure; `voice` is
gated on the pitch type exactly as `_generate_voice_analysis` is. -/
def assembleRecord (m pd : List (String × Value)) (aid : String) (ts : Nat)
    (cat : String) (voice : Value) : Value :=
  .obj [
    ("id", .str aid),
    ("pitchId", (lookupV pd "id").getD (.str ("pitch_" ++ toString ts))),
    ("overallScore", mGet m "overallScore" (.num 85)),
    ("categoryScores", mGet m "categoryScores" defaultCategoryScores),
    ("feedback", mGet m "feedback" defaultFeedback),
    ("response", mGet m "response" defaultResponse),
    ("keynotes", if isAudioVideo pd then mGet m "keynotes" (.arr []) else .arr []),
    ("marketAnalysis", mGet m "marketAnalysis" defaultMarketAnalysis),
    ("voiceAnalysis", if isAudioVideo pd then voice else .null),
    ("nftEligible", mGet m "nftEligible" (.bool true)),
    ("createdAt", .str cat),
    ("agentsUsed", agentsUsedList),
    ("pitchData", .obj pd)]

/-- The field list of a record value. -/
def recordFields : Value → List (String × Value)
  | .obj f => f
  | _ => []

/-- Embedding of `generate_comprehensive_analysis`
(`mistral_analysis_agent.py`, lines 29-174): an API failure or a failed
extraction yields `success: False` with an error message; otherwise the
complete record is assembled and returned with `success: True`. -/
def generate_comprehensive_analysis (remote : Except Exc String)
    (pd : List (String × Value)) (aid : String) (ts : Nat) (cat : String)
    (voice : Value) : Except String Value :=
  match remote with
  | .error _ => .error "Mistral API call failed"
  | .ok text =>
    match extractMapping text.toList with
    | some m => .ok (assembleRecord m pd aid ts cat voice)
    | none => .error "Mistral API did not return valid JSON"

/-- The schema keys of the assembled record, in assembly order. -/
def analysisSchemaKeys : List String :=
  ["id", "pitchId", "overallScore", "categoryScores", "feedback", "response",
   "keynotes", "marketAnalysis", "voiceAnalysis", "nftEligible", "createdAt",
   "agentsUsed", "pitchData"]

theorem mGet_of_lookup {m : List (String × Value)} {k : String} {v d : Value}
    (h : lookupV m k = some v) : mGet m k d = v := by
  unfold mGet
  rw [h]
  rfl

/-- C1 counterexample.  With pitch type `text` (no `pitchType` in the pitch
data) and an LLM mapping that supplies `keynotes`, the assembled record
holds the empty default instead of the supplied value: the keynotes field
is gated on the pitch type, so "every schema field holds the extracted
value when the mapping contains that key" is false as stated. -/
theorem analysis_keynotes_gated_counterexample :
    generate_comprehensive_analysis (.ok "\x7b\"keynotes\": [\"k\"]\x7d") [] "a" 0 "t" .null
      = .ok (assembleRecord [("keynotes", .arr [.str "k"])] [] "a" 0 "t" .null)
    ∧ lookupV [("keynotes", Value.arr [.str "k"])] "keynotes" = some (.arr [.str "k"])
    ∧ lookupV (recordFields (assembleRecord [("keynotes", .arr [.str "k"])] [] "a" 0 "t" .null))
        "keynotes" = some (.arr [])
    ∧ Value.arr [] ≠ Value.arr [.str "k"] :=
  ⟨rfl, rfl, rfl, by decide⟩

/-- C1 (amended).  Whenever `generate_comprehensive_analysis` succeeds, the
returned record is assembled from some parsed mapping and is fully
populated: its keys are exactly the schema keys, and every field holds the
extracted value when the mapping supplies it and the fixed default
otherwise — except `keynotes`, which holds the extracted value only when
the pitch type is audio or video and the empty list otherwise.  A partial
record is never returned. -/
theorem analysis_record_fully_populated (remote : Except Exc String)
    (pd : List (String × Value)) (aid : String) (ts : Nat) (cat : String)
    (voice : Value) (r : Value)
    (hok : generate_comprehensive_analysis remote pd aid ts cat voice = .ok r) :
    ∃ text m, remote = .ok text ∧ extractMapping text.toList = some m
      ∧ r = assembleRecord m pd aid ts cat voice
      ∧ (recordFields r).map Prod.fst = analysisSchemaKeys
      ∧ lookupV (recordFields r) "overallScore" = some (mGet m "overallScore" (.num 85))
      ∧ lookupV (recordFields r) "categoryScores"
          = some (mGet m "categoryScores" defaultCategoryScores)
      ∧ lookupV (recordFields r) "feedback" = some (mGet m "feedback" defaultFeedback)
      ∧ lookupV (recordFields r) "response" = some (mGet m "response" defaultResponse)
      ∧ lookupV (recordFields r) "marketAnalysis"
          = some (mGet m "marketAnalysis" defaultMarketAnalysis)
      ∧ lookupV (recordFields r) "nftEligible" = some (mGet m "nftEligible" (.bool true))
      ∧ lookupV (recordFields r) "keynotes"
          = some (if isAudioVideo pd then mGet m "keynotes" (.arr []) else .arr [])
      ∧ lookupV (recordFields r) "id" = some (.str aid)
      ∧ lookupV (recordFields r) "createdAt" = some (.str cat) := by
  cases remote with
  | error e => cases hok
  | ok text =>
    unfold generate_comprehensive_analysis at hok
    dsimp only at hok
    cases hm : extractMapping text.toList with
    | none => rw [hm] at hok; cases hok
    | some m =>
      rw [hm] at hok
      have hr : r = assembleRecord m pd aid ts cat voice := by
        injection hok with h2
        exact h2.symm
      subst hr
      exact ⟨text, m, rfl, hm, rfl, rfl, rfl, rfl, rfl, rfl, rfl, rfl, rfl, rfl, rfl⟩

/-- Witness for the amended C1: success on the empty JSON object yields the
all-defaults record. -/
theorem analysis_record_fully_populated_witness :
    ∃ text m, (Except.ok "\x7b\x7d" : Except Exc String) = .ok text
      ∧ extractMapping text.toList = some m
      ∧ assembleRecord [] [] "a" 0 "t" .null = assembleRecord m [] "a" 0 "t" .null
      ∧ (recordFields (assembleRecord [] [] "a" 0 "t" .null)).map Prod.fst
          = analysisSchemaKeys
      ∧ lookupV (recordFields (assembleRecord [] [] "a" 0 "t" .null)) "overallScore"
          = some (mGet m "overallScore" (.num 85))
      ∧ lookupV (recordFields (assembleRecord [] [] "a" 0 "t" .null)) "categoryScores"
          = some (mGet m "categoryScores" defaultCategoryScores)
      ∧ lookupV (recordFields (assembleRecord [] [] "a" 0 "t" .null)) "feedback"
          = some (mGet m "feedback" defaultFeedback)
      ∧ lookupV (recordFields (assembleRecord [] [] "a" 0 "t" .null)) "response"
          = some (mGet m "response" defaultResponse)
      ∧ lookupV (recordFields (assembleRecord [] [] "a" 0 "t" .null)) "marketAnalysis"
          = some (mGet m "marketAnalysis" defaultMarketAnalysis)
      ∧ lookupV (recordFields (assembleRecord [] [] "a" 0 "t" .null)) "nftEligible"
          = some (mGet m "nftEligible" (.bool true))
      ∧ lookupV (recordFields (assembleRecord [] [] "a" 0 "t" .null)) "keynotes"
          = some (if isAudioVideo [] then mGet m "keynotes" (.arr []) else .arr [])
      ∧ lookupV (recordFields (assembleRecord [] [] "a" 0 "t" .null)) "id"
          = some (.str "a")
      ∧ lookupV (recordFields (assembleRecord [] [] "a" 0 "t" .null)) "createdAt"
          = some (.str "t") := by
  have h := analysis_record_fully_populated (.ok "\x7b\x7d") [] "a" 0 "t" .null
    (assembleRecord [] [] "a" 0 "t" .null) rfl
  obtain ⟨text, m, h1, h2, h3, hrest⟩ := h
  exact ⟨text, m, h1, h2, h3, hrest.1, hrest.2.1, hrest.2.2.1, hrest.2.2.2.1,
    hrest.2.2.2.2.1, hrest.2.2.2.2.2.1, hrest.2.2.2.2.2.2.1,
    hrest.2.2.2.2.2.2.2.1, hrest.2.2.2.2.2.2.2.2.1, hrest.2.2.2.2.2.2.2.2.2⟩

/-- C10 counterexample.  A supplied `keynotes` value is not copied
verbatim when the pitch type is `text`: the record holds the empty list
instead, so "every field value the mapping supplies is copied into the
record verbatim" fails as stated. -/
theorem analysis_keynotes_not_verbatim_counterexample :
    lookupV [("keynotes", Value.arr [.str "verbatim"])] "keynotes"
      = some (.arr [.str "verbatim"])
    ∧ lookupV (recordFields
        (assembleRecord [("keynotes", .arr [.str "verbatim"])] [] "b" 1 "u" .null))
        "keynotes" = some (.arr [])
    ∧ Value.arr [] ≠ Value.arr [.str "verbatim"] :=
  ⟨rfl, rfl, by decide⟩

/-- C10 (amended).  Every value the parsed mapping supplies for
`overallScore`, `categoryScores`, `feedback`, `response`,
`marketAnalysis` or `nftEligible` is copied into the record verbatim —
no clamping of scores to the advertised 70-100 range and no
type-consistency check, so a value of any type or magnitude appears
unchanged — and the supplied `keynotes` value is likewise copied verbatim
exactly when the pitch type is audio or video. -/
theorem analysis_values_copied_verbatim (m pd : List (String × Value))
    (aid : String) (ts : Nat) (cat : String) (voice v : Value) :
    ((lookupV m "overallScore" = some v →
      lookupV (recordFields (assembleRecord m pd aid ts cat voice)) "overallScore"
        = some v)
    ∧ (lookupV m "categoryScores" = some v →
      lookupV (recordFields (assembleRecord m pd aid ts cat voice)) "categoryScores"
        = some v)
    ∧ (lookupV m "feedback" = some v →
      lookupV (recordFields (assembleRecord m pd aid ts cat voice)) "feedback"
        = some v)
    ∧ (lookupV m "response" = some v →
      lookupV (recordFields (assembleRecord m pd aid ts cat voice)) "response"
        = some v)
    ∧ (lookupV m "marketAnalysis" = some v →
      lookupV (recordFields (assembleRecord m pd aid ts cat voice)) "marketAnalysis"
        = some v)
    ∧ (lookupV m "nftEligible" = some v →
      lookupV (recordFields (assembleRecord m pd aid ts cat voice)) "nftEligible"
        = some v))
    ∧ (isAudioVideo pd = true → lookupV m "keynotes" = some v →
      lookupV (recordFields (assembleRecord m pd aid ts cat voice)) "keynotes"
        = some v) := by
  refine ⟨⟨?_, ?_, ?_, ?_, ?_, ?_⟩, ?_⟩
  · intro hv
    rw [show lookupV (recordFields (assembleRecord m pd aid ts cat voice)) "overallScore"
      = some (mGet m "overallScore" (.num 85)) from rfl, mGet_of_lookup hv]
  · intro hv
    rw [show lookupV (recordFields (assembleRecord m pd aid ts cat voice)) "categoryScores"
      = some (mGet m "categoryScores" defaultCategoryScores) from rfl, mGet_of_lookup hv]
  · intro hv
    rw [show lookupV (recordFields (assembleRecord m pd aid ts cat voice)) "feedback"
      = some (mGet m "feedback" defaultFeedback) from rfl, mGet_of_lookup hv]
  · intro hv
    rw [show lookupV (recordFields (assembleRecord m pd aid ts cat voice)) "response"
      = some (mGet m "response" defaultResponse) from rfl, mGet_of_lookup hv]
  · intro hv
    rw [show lookupV (recordFields (assembleRecord m pd aid ts cat voice)) "marketAnalysis"
      = some (mGet m "marketAnalysis" defaultMarketAnalysis) from rfl, mGet_of_lookup hv]
  · intro hv
    rw [show lookupV (recordFields (assembleRecord m pd aid ts cat voice)) "nftEligible"
      = some (mGet m "nftEligible" (.bool true)) from rfl, mGet_of_lookup hv]
  · intro haud hv
    rw [show lookupV (recordFields (assembleRecord m pd aid ts cat voice)) "keynotes"
      = some (if isAudioVideo pd then mGet m "keynotes" (.arr []) else .arr []) from rfl,
      haud]
    rw [if_pos rfl, mGet_of_lookup hv]

/-- Witness for the amended C10: an out-of-range score (1000) supplied by
the mapping appears unchanged in the record, and for an audio pitch a
supplied keynote list is copied verbatim. -/
theorem analysis_values_copied_verbatim_witness :
    lookupV (recordFields (assembleRecord [("overallScore", Value.num 1000)] []
      "a" 0 "t" .null)) "overallScore" = some (Value.num 1000)
    ∧ lookupV (recordFields (assembleRecord [("keynotes", Value.arr [.str "k"])]
        [("pitchType", Value.str "audio")] "a" 0 "t" .null)) "keynotes"
      = some (Value.arr [.str "k"]) := by
  constructor
  · exact (analysis_values_copied_verbatim [("overallScore", Value.num 1000)] []
      "a" 0 "t" .null (Value.num 1000)).1.1 rfl
  · exact (analysis_values_copied_verbatim [("keynotes", Value.arr [.str "k"])]
      [("pitchType", Value.str "audio")] "a" 0 "t" .null
      (Value.arr [.str "k"])).2 rfl rfl

/-- Re-assembling a record from its own field list reproduces the record,
with the same injected identifiers, timestamp and voice payload. -/
theorem assemble_fields_idempotent (m pd : List (String × Value)) (aid : String)
    (ts : Nat) (cat : String) (voice : Value) :
    assembleRecord (recordFields (assembleRecord m pd aid ts cat voice)) pd aid ts cat voice
      = assembleRecord m pd aid ts cat voice := by
  unfold assembleRecord recordFields
  cases haud : isAudioVideo pd <;> rfl

/-- C9 (amended).  When the JSON re-serialization of an assembled record
parses back through the extraction pipeline to the record's own field
mapping, re-assembly with the same injected context yields the identical
record: the pipeline is round-trip stable whenever extraction is lossless
on the serialized record.  (The counterexample shows extraction is not
always lossless: the normalization step can corrupt string fields.) -/
theorem analysis_roundtrip_stable (m pd : List (String × Value)) (aid : String)
    (ts : Nat) (cat : String) (voice : Value)
    (hrt : extractMapping (serialize (assembleRecord m pd aid ts cat voice))
      = some (recordFields (assembleRecord m pd aid ts cat voice))) :
    generate_comprehensive_analysis
      (.ok (String.mk (serialize (assembleRecord m pd aid ts cat voice))))
      pd aid ts cat voice
      = .ok (assembleRecord m pd aid ts cat voice) := by
  unfold generate_comprehensive_analysis
  dsimp only
  rw [show (String.mk (serialize (assembleRecord m pd aid ts cat voice))).toList
    = serialize (assembleRecord m pd aid ts cat voice) from rfl, hrt]
  dsimp only
  rw [assemble_fields_idempotent]

set_option maxRecDepth 100000 in
/-- Witness for the amended C9 at a concrete record. -/
theorem analysis_roundtrip_stable_witness :
    generate_comprehensive_analysis
      (.ok (String.mk (serialize
        (assembleRecord [("response", Value.str "ok")] [] "a" 0 "t" .null))))
      [] "a" 0 "t" .null
      = .ok (assembleRecord [("response", Value.str "ok")] [] "a" 0 "t" .null) :=
  analysis_roundtrip_stable [("response", Value.str "ok")] [] "a" 0 "t" .null
    (by rfl)

set_option maxRecDepth 100000 in
/-- C9 counterexample.  Re-running the pipeline on the serialization of an
assembled record whose `response` field contains the two characters
comma-and-closing-brace does not reproduce the record: the trailing-comma
normalization deletes the comma inside the string literal, so the
re-extracted `response` differs from the original. -/
theorem analysis_roundtrip_counterexample :
    (match generate_comprehensive_analysis
        (.ok (String.mk (serialize
          (assembleRecord [("response", Value.str "a,\x7d")] [] "a" 0 "t" .null))))
        [] "a" 0 "t" .null with
      | .ok r => lookupV (recordFields r) "response"
      | .error _ => none) = some (Value.str "a\x7d")
    ∧ lookupV (recordFields
        (assembleRecord [("response", Value.str "a,\x7d")] [] "a" 0 "t" .null))
        "response" = some (Value.str "a,\x7d")
    ∧ Value.str "a\x7d" ≠ Value.str "a,\x7d" :=
  ⟨by rfl, rfl, by decide⟩

-- Pitch generator agent (`pitch_agent.py`).

/-- The brace-balancing step of `_fix_incomplete_json` (`pitch_agent.py`,
lines 17-22): count opening and closing braces and append the deficit of
closing braces to the end. -/
def braceFix (s : List Char) : List Char :=
  if s.count '\x7d' < s.count '\x7b' then
    s ++ List.replicate (s.count '\x7b' - s.count '\x7d') '\x7d'
  else s

/-- Python `str.split('\n')`. -/
def splitNl : List Char → List (List Char)
  | [] => [[]]
  | c :: r =>
    if c = '\n' then [] :: splitNl r
    else
      match splitNl r with
      | [] => [[c]]
      | l :: ls => (c :: l) :: ls

/-- Did the stripped line end in a character other than quote, comma,
opening or closing brace, or closing bracket?  (`pitch_agent.py` line 34's
`endswith` tuple test, negated.) -/
def endsBad (st : List Char) : Bool :=
  match st.getLast? with
  | some c => !(c == '"' || c == ',' || c == '\x7b' || c == '\x7d' || c == ']')
  | none => false

/-- The per-line quote-fixing step of `_fix_incomplete_json`
(`pitch_agent.py`, lines 29-36): a line whose stripped form ends in a double
quote, or ends in a character outside the closing set, is right-stripped
and given a closing quote and comma. -/
def fixLine (line : List Char) : List Char :=
  let st := stripWS line
  if st.getLast? == some '"' && !(List.isSuffixOf ['"', ','] st) then
    rstripWS line ++ ['"', ',']
  else if !st.isEmpty && endsBad st then
    rstripWS line ++ ['"', ',']
  else line

/-- Lines 26-38 of `pitch_agent.py`: split on newlines, fix each line, and
rejoin with newlines. -/
def lineFix (s : List Char) : List Char :=
  List.intercalate ['\n'] ((splitNl s).map fixLine)

/-- Drop the exact prefix `p` from `s`, or fail. -/
def dropPre : List Char → List Char → Option (List Char)
  | [], s => some s
  | _ :: _, [] => none
  | p :: ps, c :: cs => if p = c then dropPre ps cs else none

/-- One attempt of the scavenger pattern
`"<fieldName>"\s*:\s*"([^"]*)` at the start of `s` (`pitch_agent.py`,
lines 61-78): the quoted field name, optional whitespace, a colon, optional
whitespace, an opening quote, then the captured run of non-quote
characters. -/
def matchFieldAt (field : List Char) (s : List Char) : Option (List Char) :=
  match dropPre ('"' :: field ++ ['"']) s with
  | none => none
  | some r1 =>
    match r1.dropWhile isPyWs with
    | ':' :: r2 =>
      match r2.dropWhile isPyWs with
      | '"' :: r3 => some (r3.takeWhile (fun c => c != '"'))
      | _ => none
    | _ => none

/-- `re.search` of the scavenger pattern: the leftmost position where the
pattern matches, or failure. -/
def searchField (field : List Char) : List Char → Option (List Char)
  | [] => none
  | c :: t =>
    match matchFieldAt field (c :: t) with
    | some cap => some cap
    | none => searchField field t

/-- The initial `result` dictionary of `_extract_partial_data`
(`pitch_agent.py`, lines 53-58). -/
def defaultPartial : List (String × Value) :=
  [("problem", .str "Problem for AI in Stock Exchange"),
   ("solution", .str "Solution for AI in Stock Exchange"),
   ("market", .str "Market size and opportunity"),
   ("business_model", .str "Business model details")]

/-- One `if <field>_match: result[field] = group(1)` block of
`_extract_partial_data`: overwrite the entry when the pattern matches
somewhere in the text. -/
def scavengeField (m : List (String × Value)) (key : String)
    (text : List Char) : List (String × Value) :=
  match searchField key.toList text with
  | some cap => insertKV m key (.str (String.mk cap))
  | none => m

/-- Embedding of `_extract_partial_data` (`pitch_agent.py`, lines 48-80):
start from the default dictionary and overwrite, in order, each of the four
schema fields whose pattern matches. -/
def extract_partial_data (text : List Char) : List (String × Value) :=
  scavengeField (scavengeField (scavengeField (scavengeField
    defaultPartial "problem" text) "solution" text) "market" text)
    "business_model" text

/-- Embedding of `_fix_incomplete_json` (`pitch_agent.py`, lines 10-46):
balance the braces, fix the lines, try `json.loads` on the mutated text,
and on failure fall back to `_extract_partial_data` — applied to the
mutated text, not the original argument. -/
def fix_incomplete_json (s : List Char) : Value :=
  let t := lineFix (braceFix s)
  match json_loads t with
  | some v => v
  | none => .obj (extract_partial_data t)

/-- Three backticks. -/
def fenceTicks : List Char := ['\x60', '\x60', '\x60']

/-- The opening of a Markdown ` ```json ` fence. -/
def fenceOpen : List Char := fenceTicks ++ ['j', 's', 'o', 'n']

/-- After the captured closing brace: optional whitespace then the closing
fence. -/
def fenceCloseNext (r : List Char) : Bool :=
  match dropPre fenceTicks (r.dropWhile isPyWs) with
  | some _ => true
  | none => false

/-- The lazy body `.*?` of the fence pattern: the shortest run of characters
up to a closing brace that is followed by optional whitespace and the
closing fence. -/
def fenceInner : List Char → Option (List Char)
  | [] => none
  | c :: r =>
    if c == '\x7d' && fenceCloseNext r then some []
    else (fenceInner r).map (fun l => c :: l)

/-- One attempt of the fence pattern
(`pitch_agent.py` line 118) at the start of `s`: the opening fence,
optional whitespace, an opening brace, then the lazy body. -/
def fenceAt (s : List Char) : Option (List Char) :=
  match dropPre fenceOpen s with
  | none => none
  | some r =>
    match r.dropWhile isPyWs with
    | '\x7b' :: rest => (fenceInner rest).map (fun c => '\x7b' :: c ++ ['\x7d'])
    | _ => none

/-- `re.search` of the fence pattern: leftmost match, or failure. -/
def searchFence : List Char → Option (List Char)
  | [] => none
  | c :: t =>
    match fenceAt (c :: t) with
    | some j => some j
    | none => searchFence t

/-- The fallback dictionary returned by `generate_pitch` when any exception
reaches its outer handler (`pitch_agent.py`, lines 137-142). -/
def defaultPitch (topic : String) : Value :=
  .obj [("problem", .str ("Problem for " ++ topic)),
        ("solution", .str ("Solution for " ++ topic)),
        ("market", .str "Market size and opportunity"),
        ("business_model", .str "Business model details")]

/-- Embedding of `generate_pitch` (`pitch_agent.py`, lines 82-142).
`remote` is the outcome of the API call: an exception anywhere in the
request produces the default dictionary for the topic; a successful
response text is searched for a Markdown JSON fence, then for a greedy
brace span, then parsed, with `_fix_incomplete_json` as the parse
fallback. -/
def generate_pitch (topic : String) (remote : Except Exc (List Char)) : Value :=
  match remote with
  | .error _ => defaultPitch topic
  | .ok pitch_text =>
    let clean :=
      match searchFence pitch_text with
      | some c => c
      | none =>
        match searchBraceSpan pitch_text with
        | some c => c
        | none => pitch_text
    match json_loads clean with
    | some v => v
    | none => fix_incomplete_json clean

/-- C5 counterexample.  The valid object text for `\x7b"a": "x\x7by"\x7d`
truncated by deleting its single trailing closing brace is not repaired:
the brace inside the string literal inflates the count, two closing braces
are appended, the parse fails on the extra data, and the scavenger loses
the field entirely — the returned mapping holds none of the original
intended values. -/
theorem fix_incomplete_json_counterexample :
    json_loads ['\x7b', '"', 'a', '"', ':', ' ', '"', 'x', '\x7b', 'y', '"', '\x7d']
      = some (.obj [("a", Value.str "x\x7by")])
    ∧ braceFix ['\x7b', '"', 'a', '"', ':', ' ', '"', 'x', '\x7b', 'y', '"']
      = ['\x7b', '"', 'a', '"', ':', ' ', '"', 'x', '\x7b', 'y', '"', '\x7d', '\x7d']
    ∧ fix_incomplete_json ['\x7b', '"', 'a', '"', ':', ' ', '"', 'x', '\x7b', 'y', '"']
      = .obj defaultPartial
    ∧ lookupV defaultPartial "a" = none :=
  ⟨rfl, rfl, rfl, rfl⟩

/-- C5 (amended).  When the text `t` obtained by restoring the `k ≥ 1`
deleted trailing closing braces is brace-balanced, untouched by the
line-fixing pass, and parses as `v`, `_fix_incomplete_json` on the
truncated text appends exactly the deficit of closing braces and returns
`v` — every field of the original value is recovered.  (The hypotheses are
necessary: the counterexample shows the repair failing when a string
literal unbalances the brace count.) -/
theorem fix_incomplete_json_repairs_truncation (s t : List Char) (k : Nat)
    (v : Value)
    (ht : t = s ++ List.replicate k '\x7d')
    (hk : 1 ≤ k)
    (hbal : t.count '\x7b' = t.count '\x7d')
    (hline : lineFix t = t)
    (hparse : json_loads t = some v) :
    fix_incomplete_json s = v := by
  have h1 : t.count '\x7b' = s.count '\x7b' := by
    rw [ht, List.count_append, List.count_replicate]
    simp
  have h2 : t.count '\x7d' = s.count '\x7d' + k := by
    rw [ht, List.count_append, List.count_replicate]
    simp
  have hcb : s.count '\x7b' = s.count '\x7d' + k := by omega
  have hbf : braceFix s = t := by
    unfold braceFix
    rw [if_pos (by omega), ht]
    congr 2
    omega
  unfold fix_incomplete_json
  rw [hbf, hline]
  simp only [hparse]

/-- Witness for the amended C5: restoring the one deleted closing brace of
`\x7b"problem": "x"\x7d` recovers the parsed object. -/
theorem fix_incomplete_json_repairs_truncation_witness :
    fix_incomplete_json
      ['\x7b', '"', 'p', 'r', 'o', 'b', 'l', 'e', 'm', '"', ':', ' ', '"', 'x', '"']
      = .obj [("problem", Value.str "x")] :=
  fix_incomplete_json_repairs_truncation
    ['\x7b', '"', 'p', 'r', 'o', 'b', 'l', 'e', 'm', '"', ':', ' ', '"', 'x', '"']
    (['\x7b', '"', 'p', 'r', 'o', 'b', 'l', 'e', 'm', '"', ':', ' ', '"', 'x', '"']
      ++ List.replicate 1 '\x7d')
    1 (.obj [("problem", Value.str "x")]) rfl (by decide) (by decide) rfl rfl

/-- C7 counterexample.  On an input where no pattern matches (the empty
text), the scavenger's mapping is not empty and the unmatched fields are
not absent: all four schema fields are present, holding fixed default
strings. -/
theorem extract_partial_counterexample :
    searchField "problem".toList [] = none
    ∧ extract_partial_data [] = defaultPartial
    ∧ lookupV (extract_partial_data []) "problem"
        = some (Value.str "Problem for AI in Stock Exchange")
    ∧ (extract_partial_data []).length = 4 :=
  ⟨rfl, rfl, rfl, rfl⟩

/-- C7 (amended).  For every input text the scavenger never fails and
returns a mapping over exactly the four schema fields, in fixed order;
each field holds the leftmost capture of its pattern
`"<fieldName>"\s*:\s*"([^"]*)` when the pattern matches and a fixed
default string otherwise — unmatched fields are defaulted, not absent. -/
theorem extract_partial_total_with_defaults (text : List Char) :
    (extract_partial_data text).map Prod.fst
      = ["problem", "solution", "market", "business_model"]
    ∧ lookupV (extract_partial_data text) "problem"
        = some ((searchField "problem".toList text).elim
            (Value.str "Problem for AI in Stock Exchange")
            (fun cap => Value.str (String.mk cap)))
    ∧ lookupV (extract_partial_data text) "solution"
        = some ((searchField "solution".toList text).elim
            (Value.str "Solution for AI in Stock Exchange")
            (fun cap => Value.str (String.mk cap)))
    ∧ lookupV (extract_partial_data text) "market"
        = some ((searchField "market".toList text).elim
            (Value.str "Market size and opportunity")
            (fun cap => Value.str (String.mk cap)))
    ∧ lookupV (extract_partial_data text) "business_model"
        = some ((searchField "business_model".toList text).elim
            (Value.str "Business model details")
            (fun cap => Value.str (String.mk cap))) := by
  unfold extract_partial_data scavengeField
  cases h1 : searchField "problem".toList text <;>
    cases h2 : searchField "solution".toList text <;>
      cases h3 : searchField "market".toList text <;>
        cases h4 : searchField "business_model".toList text <;>
          exact ⟨rfl, rfl, rfl, rfl, rfl⟩

/-- C8 counterexample.  An authentication failure (HTTP 401, not a rate
limit) in the pitch generator's API call is not propagated: `generate_pitch`
masks it with the fabricated default pitch dictionary for the topic. -/
theorem generate_pitch_masks_fatal_error :
    generate_pitch "AI in healthcare" (.error ⟨.generic, some 401⟩)
      = defaultPitch "AI in healthcare"
    ∧ defaultPitch "AI in healthcare"
      = Value.obj [("problem", .str "Problem for AI in healthcare"),
          ("solution", .str "Solution for AI in healthcare"),
          ("market", .str "Market size and opportunity"),
          ("business_model", .str "Business model details")] :=
  ⟨rfl, rfl⟩

/-- C8 (amended).  In the analysis pipeline the property does hold: a
fatal remote failure makes `generate_comprehensive_analysis` return the
explicit error result, and a transcription attempt that fails at once with
a fatal (non-429, non-file-not-found) error makes `_transcribe_local_file`
return `None` after a single invocation — not a placeholder.  The pitch
generator is the exception the counterexample exhibits. -/
theorem fatal_error_propagated_by_analysis_agent (e : Exc)
    (pd : List (String × Value)) (aid : String) (ts : Nat) (cat : String)
    (voice : Value) (outcomes : Nat → Except Exc (Option String))
    (h0 : outcomes 0 = .error e) (h429 : ¬ e.status_code = some 429)
    (hknd : e.kind = .generic) :
    generate_comprehensive_analysis (.error e) pd aid ts cat voice
      = .error "Mistral API call failed"
    ∧ transcribe_local_file outcomes = none
    ∧ (retry_with_backoff outcomes 3 2 2 60).calls = 1 := by
  have hrun : retry_with_backoff outcomes 3 2 2 60 = ⟨.error e, [], 1⟩ := by
    unfold retry_with_backoff
    exact retryAux_succ_fatal h0 h429
  refine ⟨rfl, ?_, by rw [hrun]⟩
  unfold transcribe_local_file
  rw [hrun]
  dsimp only
  rw [if_neg (by rw [hknd]; intro h; exact ExcKind.noConfusion h), if_neg h429]

/-- An outcome sequence that fails every attempt with an HTTP 401 error. -/
def always401 : Nat → Except Exc (Option String) :=
  fun _ => .error ⟨.generic, some 401⟩

/-- Witness for the amended C8: a 401 failure on the first attempt. -/
theorem fatal_error_propagated_by_analysis_agent_witness :
    generate_comprehensive_analysis (.error ⟨.generic, some 401⟩) [] "a" 0 "t" .null
      = .error "Mistral API call failed"
    ∧ transcribe_local_file always401 = none
    ∧ (retry_with_backoff always401 3 2 2 60).calls = 1 :=
  fatal_error_propagated_by_analysis_agent ⟨.generic, some 401⟩ [] "a" 0 "t" .null
    always401 rfl (by decide) rfl
